import Mathlib

/-!
# gotop: metrics sampling and rate derivation

A shallow embedding of the sampling engine of `main.go`: the line reducers for
`/proc/stat`, `/proc/meminfo` and `/proc/net/dev`, the CPU delta engine, the chart
histories and the rate formatter, followed by the properties proved about them.

Conventions of the embedding.

* Go `string` is `String`; the library functions are modelled on the list of code points,
  which agrees with Go's byte-wise view on every valid UTF-8 text.
* Go `int` and `int64` are `Int`; `wrap64` is applied wherever the source's arithmetic can
  leave the 64-bit range (the program is built for a 64-bit platform).
* Go `float32` is `F32`, an IEEE 754 binary32 value with round-to-nearest-even arithmetic.
* Go maps are association lists with first-match lookup; a run-time panic is `none`.
-/

namespace Gotop

/-! ## Machine integers -/

/-- Two's-complement reduction of a mathematical integer to the `int64` range. -/
def wrap64 (x : Int) : Int := (x + 2 ^ 63) % 2 ^ 64 - 2 ^ 63

/-- The values an `int64` can hold. -/
def InInt64 (x : Int) : Prop := -(2 ^ 63) ≤ x ∧ x < 2 ^ 63

instance (x : Int) : Decidable (InInt64 x) := by unfold InInt64; exact inferInstance

/-! ## Go library: package `strings` -/

/-- The code points for which `unicode.IsSpace` holds. -/
def isSpace (c : Char) : Bool :=
  let n := c.toNat
  (9 ≤ n && n ≤ 13) || n == 32 || n == 0x85 || n == 0xA0 || n == 0x1680 ||
  (0x2000 ≤ n && n ≤ 0x200A) || n == 0x2028 || n == 0x2029 || n == 0x202F ||
  n == 0x205F || n == 0x3000

/-- Worker of `fieldsL`: `cur` is the field being read, in order. -/
def fieldsGo : List Char → List Char → List (List Char)
  | [], cur => if cur = [] then [] else [cur]
  | c :: cs, cur =>
    if isSpace c then
      if cur = [] then fieldsGo cs [] else cur :: fieldsGo cs []
    else fieldsGo cs (cur ++ [c])

/-- `strings.Fields` on code points: the maximal runs of non-space characters. -/
def fieldsL (s : List Char) : List (List Char) := fieldsGo s []

/-- `strings.Fields`. -/
def fields (s : String) : List String := (fieldsL s.toList).map String.mk

/-- `strings.TrimSpace` on code points. -/
def trimSpaceL (s : List Char) : List Char :=
  ((s.dropWhile isSpace).reverse.dropWhile isSpace).reverse

/-- `strings.TrimSpace`. -/
def trimSpace (s : String) : String := String.mk (trimSpaceL s.toList)

/-- Whether `p` is an initial segment of `s` (`strings.HasPrefix`). -/
def startsWithL : List Char → List Char → Bool
  | [], _ => true
  | _ :: _, [] => false
  | a :: p, b :: s => a == b && startsWithL p s

/-- `strings.Contains` on code points. -/
def containsL (s sub : List Char) : Bool :=
  match s with
  | [] => startsWithL sub []
  | c :: cs => startsWithL sub (c :: cs) || containsL cs sub

/-- `strings.Contains`. -/
def contains (s sub : String) : Bool := containsL s.toList sub.toList

/-- `strings.Split(s, "\n")`: the pieces between line feeds; a text of `n` line feeds has
`n + 1` pieces, the last one possibly empty. -/
def splitLinesL : List Char → List (List Char)
  | [] => [[]]
  | c :: cs =>
    match splitLinesL cs with
    | [] => [[]]
    | l :: ls => if c = '\n' then [] :: l :: ls else (c :: l) :: ls

/-! ## Go library: package `regexp`

The three patterns of the program, `^cpu([0-9]*)`, `^MemTotal:` and `^MemFree:`, are
anchored at the start of the text and the optional digit group matches the empty string,
so `MatchString` holds exactly when the text starts with the literal part. -/

/-- `regexp.MustCompile("^" + lit).MatchString(s)` for a literal `lit`. -/
def matchAnchored (lit s : String) : Bool := startsWithL lit.toList s.toList

/-! ## Go library: package `strconv` -/

/-- The two failures of `strconv.ParseInt`. -/
inductive NumError
  | badSyntax
  | outOfRange
  deriving DecidableEq, Repr

/-- The digit loop of `strconv.ParseUint(s, 10, 64)`, with `n` the value read so far.
A character that is not a decimal digit fails with value `0`; a value that leaves the
`uint64` range fails at once with value `2^64 - 1`. -/
def parseUintGo : List Char → Nat → Nat × Option NumError
  | [], n => (n, none)
  | c :: cs, n =>
    if '0' ≤ c ∧ c ≤ '9' then
      let d := c.toNat - '0'.toNat
      if n ≥ (2 ^ 64 - 1) / 10 + 1 then (2 ^ 64 - 1, some .outOfRange)
      else if n * 10 + d > 2 ^ 64 - 1 then (2 ^ 64 - 1, some .outOfRange)
      else parseUintGo cs (n * 10 + d)
    else (0, some .badSyntax)

/-- `strconv.ParseUint(s, 10, 64)`. -/
def parseUintL (s : List Char) : Nat × Option NumError :=
  if s = [] then (0, some .badSyntax) else parseUintGo s 0

/-- `strconv.ParseInt(s, 10, 0)` on code points, the platform `int` being 64 bits wide:
an optional sign, then `ParseUint`; a syntax error returns `0`, a magnitude outside the
`int64` range returns the nearest bound together with a range error. -/
def parseIntL (s : List Char) : Int × Option NumError :=
  match s with
  | [] => (0, some .badSyntax)
  | c :: cs =>
    let neg := c = '-'
    let body := if c = '+' ∨ c = '-' then cs else c :: cs
    match parseUintL body with
    | (_, some .badSyntax) => (0, some .badSyntax)
    | (un, _) =>
      if ¬ neg ∧ un ≥ 2 ^ 63 then (2 ^ 63 - 1, some .outOfRange)
      else if neg ∧ un > 2 ^ 63 then (-(2 ^ 63), some .outOfRange)
      else (if neg then -(un : Int) else (un : Int), none)

/-- `strconv.ParseInt(s, 10, 0)`. -/
def parseInt (s : String) : Int × Option NumError := parseIntL s.toList

/-- The `%d` verb of `fmt.Sprintf` for an `int`. -/
def fmtInt (n : Int) : String := toString n

/-! ## Floating point: IEEE 754 binary formats

A float is modelled by its value: a signed dyadic number `± m · 2^e`, which the operations
return in lowest terms (`m` odd, or `m = 0` and `e = 0`), an infinity, or the NaN. Every
operation computes the exact result and rounds it to the nearest value of the format, ties
to even. The program never multiplies and then adds, so no operation of it can be fused
and each one is rounded on its own. -/

/-- A floating-point value. -/
inductive Fl
  | fin (neg : Bool) (m : Nat) (e : Int)
  | inf (neg : Bool)
  | nan
  deriving DecidableEq, Repr

/-- Worker of `bitLen`. -/
def bitLenGo : Nat → Nat → Nat
  | 0, _ => 0
  | fuel + 1, n => if n = 0 then 0 else bitLenGo fuel (n / 2) + 1

/-- Number of binary digits of `n` (`0` for `0`). -/
def bitLen (n : Nat) : Nat := bitLenGo n n

/-- Worker of `lowest`: divide the factors of two out of `m`. -/
def lowestGo : Nat → Nat → Int → Nat × Int
  | 0, m, e => (m, e)
  | fuel + 1, m, e => if m % 2 = 0 ∧ m ≠ 0 then lowestGo fuel (m / 2) (e + 1) else (m, e)

/-- The finite value `± m · 2^e` in lowest terms. -/
def lowest (neg : Bool) (m : Nat) (e : Int) : Fl :=
  if m = 0 then .fin neg 0 0 else
    let r := lowestGo m m e
    .fin neg r.1 r.2

/-- Nearest integer to `n / d`, ties to even (`d > 0`). -/
def divNearestEven (n d : Nat) : Nat :=
  let q := n / d
  let r := n % d
  if 2 * r < d then q else if 2 * r > d then q + 1 else if q % 2 = 0 then q else q + 1

/-- The binary exponent of `a / d` for positive `a` and `d`: the integer `k` with
`2^k ≤ a / d < 2^(k+1)`. -/
def expOf (a d : Nat) : Int :=
  let k : Int := (bitLen a : Int) - (bitLen d : Int)
  -- `2^(k-1) < a / d < 2^(k+1)`; the test decides `2^k ≤ a / d`
  let ge : Bool :=
    if 0 ≤ k then decide (d * 2 ^ k.toNat ≤ a) else decide (d ≤ a * 2 ^ (-k).toNat)
  if ge then k else k - 1

/-- Nearest integer to `(a / d) · 2^sh`, ties to even (`d > 0`). -/
def scaledMant (a d : Nat) (sh : Int) : Nat :=
  if 0 ≤ sh then divNearestEven (a * 2 ^ sh.toNat) d
  else divNearestEven a (d * 2 ^ (-sh).toNat)

/-- Rounding of the exact value `± (a / d) · 2^s` (with `d > 0`) to the binary format of
`prec` significant bits and normal exponents `emin .. emax`: round to nearest, ties to
even, gradual underflow, overflow to infinity. -/
def roundQ (prec : Nat) (emin emax : Int) (neg : Bool) (a d : Nat) (s : Int) : Fl :=
  if a = 0 then .fin neg 0 0 else
    -- exponent of the unit in the last place
    let t : Int := max (expOf a d + s) emin - ((prec : Int) - 1)
    let mant := scaledMant a d (s - t)
    -- `2^(emax+1) ≤ mant · 2^t`
    if emax + 2 ≤ (bitLen mant : Int) + t then .inf neg
    else lowest neg mant t

namespace Fl

/-- Sign flip. -/
def neg : Fl → Fl
  | .fin s m e => .fin (!s) m e
  | .inf s => .inf (!s)
  | .nan => .nan

/-- Rounded addition in the format `(prec, emin, emax)`. -/
def add (prec : Nat) (emin emax : Int) : Fl → Fl → Fl
  | .nan, _ => .nan
  | _, .nan => .nan
  | .inf s, .inf s' => if s = s' then .inf s else .nan
  | .inf s, .fin _ _ _ => .inf s
  | .fin _ _ _, .inf s => .inf s
  | .fin s1 m1 e1, .fin s2 m2 e2 =>
    let e := min e1 e2
    let x1 : Int := (if s1 then -1 else 1) * ((m1 * 2 ^ (e1 - e).toNat : Nat) : Int)
    let x2 : Int := (if s2 then -1 else 1) * ((m2 * 2 ^ (e2 - e).toNat : Nat) : Int)
    let x := x1 + x2
    if x = 0 then .fin (s1 && s2) 0 0
    else roundQ prec emin emax (decide (x < 0)) x.natAbs 1 e

/-- Rounded subtraction. -/
def sub (prec : Nat) (emin emax : Int) (x y : Fl) : Fl := add prec emin emax x (neg y)

/-- Rounded multiplication. -/
def mul (prec : Nat) (emin emax : Int) : Fl → Fl → Fl
  | .nan, _ => .nan
  | _, .nan => .nan
  | .inf s, .inf s' => .inf (xor s s')
  | .inf s, .fin s' m _ => if m = 0 then .nan else .inf (xor s s')
  | .fin s m _, .inf s' => if m = 0 then .nan else .inf (xor s s')
  | .fin s1 m1 e1, .fin s2 m2 e2 => roundQ prec emin emax (xor s1 s2) (m1 * m2) 1 (e1 + e2)

/-- Rounded division; a finite non-zero value divided by zero is an infinity and `0 / 0`
is the NaN: a floating-point division never traps. -/
def div (prec : Nat) (emin emax : Int) : Fl → Fl → Fl
  | .nan, _ => .nan
  | _, .nan => .nan
  | .inf _, .inf _ => .nan
  | .inf s, .fin s' _ _ => .inf (xor s s')
  | .fin s _ _, .inf s' => .fin (xor s s') 0 0
  | .fin s1 m1 e1, .fin s2 m2 e2 =>
    if m2 = 0 then (if m1 = 0 then .nan else .inf (xor s1 s2))
    else roundQ prec emin emax (xor s1 s2) m1 m2 (e1 - e2)

/-- Conversion of an integer to the format. -/
def ofInt (prec : Nat) (emin emax : Int) (k : Int) : Fl :=
  roundQ prec emin emax (decide (k < 0)) k.natAbs 1 0

/-- Conversion to a Go `int`: truncation toward zero; the NaN, the infinities and the
values outside the `int64` range give the most negative integer (the result of the
conversion instruction of the 64-bit x86 platform). -/
def toInt : Fl → Int
  | .fin s m e =>
    let a : Int := if 0 ≤ e then ((m * 2 ^ e.toNat : Nat) : Int) else ((m / 2 ^ (-e).toNat : Nat) : Int)
    let v := if s then -a else a
    if -(2 ^ 63) ≤ v ∧ v < 2 ^ 63 then v else -(2 ^ 63)
  | _ => -(2 ^ 63)

/-- The rational value of a finite float (`0` for the infinities and the NaN). -/
def toRat : Fl → ℚ
  | .fin s m e => (if s then -1 else 1) * (m : ℚ) * (2 : ℚ) ^ e
  | _ => 0

/-- The Go comparison `x >= 0`: it holds for the zeros of either sign, the positive
finite values and the positive infinity. -/
def geZero : Fl → Bool
  | .fin s m _ => !s || m == 0
  | .inf s => !s
  | .nan => false

/-- The Go comparison `x > 0`. -/
def gtZero : Fl → Bool
  | .fin s m _ => !s && m != 0
  | .inf s => !s
  | .nan => false

/-- Finite values. -/
def isFinite : Fl → Bool
  | .fin _ _ _ => true
  | _ => false

end Fl

/-- Go `float32`: IEEE 754 binary32. -/
abbrev F32 := Fl

namespace F32

/-- `x + y` in `float32`. -/
def add (x y : F32) : F32 := Fl.add 24 (-126) 127 x y
/-- `x - y` in `float32`. -/
def sub (x y : F32) : F32 := Fl.sub 24 (-126) 127 x y
/-- `x * y` in `float32`. -/
def mul (x y : F32) : F32 := Fl.mul 24 (-126) 127 x y
/-- `x / y` in `float32`. -/
def div (x y : F32) : F32 := Fl.div 24 (-126) 127 x y
/-- `float32(k)` for an integer `k`. -/
def ofInt (k : Int) : F32 := Fl.ofInt 24 (-126) 127 k
/-- Positive zero, the zero value of the type. -/
def zero : F32 := .fin false 0 0

end F32

/-- `float64(k)` for an integer `k` (IEEE 754 binary64). -/
def F64.ofInt (k : Int) : Fl := Fl.ofInt 53 (-1022) 1023 k

/-! ## Go maps -/

/-- A Go `map[string]V`: an association list read by first match. -/
abbrev GoMap (V : Type) := List (String × V)

namespace GoMap

variable {V : Type}

/-- The entry of `key`, if any. -/
def find (m : GoMap V) (key : String) : Option V := List.lookup key m

/-- The Go expression `m[key]`: the zero value `z` of the type when `key` is absent. -/
def get (z : V) (m : GoMap V) (key : String) : V := (m.find key).getD z

/-- The Go statement `m[key] = v`. -/
def set : GoMap V → String → V → GoMap V
  | [], key, v => [(key, v)]
  | (k, w) :: m, key, v => if key = k then (k, v) :: m else (k, w) :: set m key v

/-- The keys a `range` loop visits, each once. -/
def keys (m : GoMap V) : List String := (m.map Prod.fst).dedup

end GoMap

/-! ## CPU delta engine (`CpuStat`, `CpusStats`) -/

/-- The four cumulative counters of one CPU label, or the four percentages derived from
them. -/
structure CpuStat where
  user : F32
  nice : F32
  system : F32
  idle : F32
  deriving DecidableEq, Repr

/-- The zero value of `CpuStat`. -/
def CpuStat.zero : CpuStat := ⟨F32.zero, F32.zero, F32.zero, F32.zero⟩

/-- The previous counters (`stat`) and the latest percentages (`proc`), per label. -/
structure CpusStats where
  stat : GoMap CpuStat
  proc : GoMap CpuStat
  deriving DecidableEq, Repr

/-- `NewCpusStats`. -/
def NewCpusStats (s : GoMap CpuStat) : CpusStats := { stat := s, proc := [] }

/-- `subCpuStat`. -/
def subCpuStat (m s : CpuStat) : CpuStat :=
  { user := F32.sub m.user s.user
    nice := F32.sub m.nice s.nice
    system := F32.sub m.system s.system
    idle := F32.sub m.idle s.idle }

/-- `procCpuStat`. -/
def procCpuStat (c : CpuStat) : CpuStat :=
  let sum := F32.add (F32.add (F32.add c.user c.nice) c.system) c.idle
  { user := F32.mul (F32.div c.user sum) (F32.ofInt 100)
    nice := F32.mul (F32.div c.nice sum) (F32.ofInt 100)
    system := F32.mul (F32.div c.system sum) (F32.ofInt 100)
    idle := F32.mul (F32.div c.idle sum) (F32.ofInt 100) }

/-- The body of the loop of `CpusStats.tick` for one key. -/
def CpusStats.tickKey (ns : GoMap CpuStat) (cs : CpusStats) (key : String) : CpusStats :=
  let proc := subCpuStat (ns.get CpuStat.zero key) (cs.stat.get CpuStat.zero key)
  { proc := cs.proc.set key (procCpuStat proc)
    stat := cs.stat.set key (ns.get CpuStat.zero key) }

/-- `CpusStats.tick`: the loop over the keys of the previous-counters map. -/
def CpusStats.tick (cs : CpusStats) (ns : GoMap CpuStat) : CpusStats :=
  cs.stat.keys.foldl (CpusStats.tickKey ns) cs

/-! ## Chart histories -/

/-- The slice idiom of the three charts,
`d = append(d, 0); copy(d[1:], d[0:]); d[0] = v`,
on a slice of current contents `d`: `copy` moves `min(len(dst), len(src))` elements as if
through a temporary. -/
def shiftIn {α : Type} (zero : α) (d : List α) (v : α) : List α :=
  let d1 := d ++ [zero]
  let dst := d1.drop 1
  let src := d1
  let n := min dst.length src.length
  let d2 := d1.take 1 ++ (src.take n ++ dst.drop n)
  d2.set 0 v

/-- The truncation `if len(d) > w-2 { d = d[0 : w-2] }`; the slice expression panics for a
negative bound. -/
def capTo {α : Type} (d : List α) (w : Int) : Option (List α) :=
  if (d.length : Int) > w - 2 then
    if w - 2 < 0 then none else some (d.take (w - 2).toNat)
  else some d

/-- The fields of `CpuChart` the engine writes: the gauge percentage and the line-chart
series, together with the chart width. -/
structure CpuChart where
  percent : Int
  data : List Fl
  width : Int
  deriving DecidableEq, Repr

/-- `NewCpuChart`. -/
def NewCpuChart (width : Int) : CpuChart := { percent := 0, data := [], width := width }

/-- The body of the loop of `CpuChart.Update` for one entry of the percentages map. -/
def CpuChart.updateKey (cc : CpuChart) (entry : String × CpuStat) : CpuChart :=
  if entry.1 = "cpu" then
    let val := entry.2
    let p := Fl.toInt (F32.add (F32.add val.user val.nice) val.system)
    { cc with percent := p, data := shiftIn (F64.ofInt 0) cc.data (F64.ofInt p) }
  else cc

/-- `CpuChart.Update`: the loop over the entries of the percentages map. -/
def CpuChart.Update (cc : CpuChart) (cs : CpusStats) : CpuChart :=
  (cs.proc.keys.map fun k => (k, cs.proc.get CpuStat.zero k)).foldl CpuChart.updateKey cc

/-- `MemStat`: total and free memory in kilobytes. -/
structure MemStat where
  total : Int
  free : Int
  deriving DecidableEq, Repr

/-- `NetStat`: the cumulative transmit and receive byte totals. -/
structure NetStat where
  txTotal : Int
  rxTotal : Int
  deriving DecidableEq, Repr

/-- The fields of `MemChart` the engine writes. -/
structure MemChart where
  percent : Int
  data : List Int
  width : Int
  deriving DecidableEq, Repr

/-- `NewMemChart`. -/
def NewMemChart (width : Int) : MemChart := { percent := 0, data := [], width := width }

/-- The quotient `int((ms.total - ms.free) * 100 / ms.total)` of `MemChart.Update`, for a
non-zero `ms.total`: `int64` arithmetic, division truncated toward zero. -/
def MemStat.usedPercent (ms : MemStat) : Int :=
  wrap64 ((wrap64 (wrap64 (ms.total - ms.free) * 100)).tdiv ms.total)

/-- `MemChart.Update`; the integer division panics for `ms.total = 0`. -/
def MemChart.Update (mte : MemChart) (ms : MemStat) : Option MemChart :=
  if ms.total = 0 then none else
    let used := ms.usedPercent
    (capTo (shiftIn 0 mte.data used) mte.width).map fun d =>
      { mte with percent := used, data := d }

/-- `formatRate`. -/
def formatRate (bytes : Int) : String :=
  if bytes < 1024 then fmtInt bytes ++ " " ++ "Byte" ++ "/s"
  else if bytes < 1024 * 1024 then fmtInt (bytes.tdiv 1024) ++ " " ++ "KB" ++ "/s"
  else if bytes < 1024 * 1024 * 1024 then
    fmtInt (bytes.tdiv (1024 * 1024)) ++ " " ++ "MB" ++ "/s"
  else if bytes < 1024 * 1024 * 1024 * 1024 then
    fmtInt (bytes.tdiv (1024 * 1024 * 1024)) ++ " " ++ "GB" ++ "/s"
  else fmtInt (bytes.tdiv (1024 * 1024 * 1024 * 1024)) ++ " " ++ "TB" ++ "/s"

/-- The fields of `NetChart` the engine writes: the two series with their titles, the
width of the sparkline group and the previous totals. -/
structure NetChart where
  rxData : List Int
  rxTitle : String
  txData : List Int
  txTitle : String
  width : Int
  txTotal : Int
  rxTotal : Int
  deriving DecidableEq, Repr

/-- `NewNetChart`. -/
def NewNetChart (width : Int) : NetChart :=
  { rxData := [], rxTitle := "Rx", txData := [], txTitle := "Tx", width := width,
    txTotal := 0, rxTotal := 0 }

/-- The transmit rate computed at the head of `NetChart.Update`. -/
def NetChart.txRate (nc : NetChart) (ns : NetStat) : Int :=
  if nc.txTotal ≠ 0 then wrap64 (ns.txTotal - nc.txTotal) else 0

/-- The receive rate computed at the head of `NetChart.Update`. -/
def NetChart.rxRate (nc : NetChart) (ns : NetStat) : Int :=
  if nc.rxTotal ≠ 0 then wrap64 (ns.rxTotal - nc.rxTotal) else 0

/-- `NetChart.Update`. -/
def NetChart.Update (nc : NetChart) (ns : NetStat) : Option NetChart :=
  let t := nc.txRate ns
  let r := nc.rxRate ns
  match capTo (shiftIn 0 nc.rxData r) nc.width with
  | none => none
  | some rx =>
    match capTo (shiftIn 0 nc.txData t) nc.width with
    | none => none
    | some tx =>
      some { nc with
        rxTotal := ns.rxTotal, txTotal := ns.txTotal,
        rxData := rx, rxTitle := "Rx " ++ formatRate r,
        txData := tx, txTitle := "Tx " ++ formatRate t }

/-! ## Line reducers -/

/-- The `error` values the engine produces. -/
inductive GoError
  /-- "cpu info line has not enough fields" -/
  | cpuFields
  /-- "mem info line has not enough fields" -/
  | memFields
  /-- A failure of `strconv.ParseInt`. -/
  | num (e : NumError)
  /-- A read on a file that could not be opened. -/
  | invalidFile
  deriving DecidableEq, Repr

/-- `errIntParser`: the first parse error is kept. -/
structure errIntParser where
  err : Option GoError
  deriving DecidableEq, Repr

/-- `errIntParser.parse`: once an error is recorded every later call returns `0`. -/
def errIntParser.parse (eip : errIntParser) (s : String) : Int × errIntParser :=
  match eip.err with
  | some _ => (0, eip)
  | none =>
    let r := parseInt s
    (r.1, { err := r.2.map GoError.num })

/-- The interface `LineProcessor` over an explicit reducer state `σ`; `process` returns
the new state and its `error` result, or `none` when it panics. -/
structure LineProcessor (σ ρ : Type) where
  process : σ → String → Option (σ × Option GoError)
  finalize : σ → ρ

/-- `CpuLineProcessor.process` on the map `clp.m`. -/
def CpuLineProcessor.process (m : GoMap CpuStat) (line : String) :
    GoMap CpuStat × Option GoError :=
  if matchAnchored "cpu" line then
    match fields line with
    | t0 :: t1 :: t2 :: t3 :: t4 :: _ =>
      let parser : errIntParser := { err := none }
      let (u, parser) := parser.parse t1
      let (n, parser) := parser.parse t2
      let (s, parser) := parser.parse t3
      let (i, parser) := parser.parse t4
      let cs : CpuStat :=
        { user := F32.ofInt u, nice := F32.ofInt n, system := F32.ofInt s, idle := F32.ofInt i }
      (m.set t0 cs, parser.err)
    | _ => (m, some .cpuFields)
  else (m, none)

/-- `CpuLineProcessor.finalize`. -/
def CpuLineProcessor.finalize (m : GoMap CpuStat) : GoMap CpuStat := m

/-- `MemStat.process`. -/
def MemStat.process (ms : MemStat) (line : String) : MemStat × Option GoError :=
  let rtotal := matchAnchored "MemTotal:" line
  let rfree := matchAnchored "MemFree:" line
  let r : Option (Int × Option GoError) :=
    if rtotal || rfree then
      match fields line with
      | _ :: t1 :: _ :: _ =>
        let p := parseInt t1
        some (p.1, p.2.map GoError.num)
      | _ => none
    else some (0, none)
  match r with
  | none => (ms, some .memFields)
  | some (_, some e) => (ms, some e)
  | some (aux, none) =>
    let ms := if rtotal then { ms with total := aux } else ms
    let ms := if rfree then { ms with free := aux } else ms
    (ms, none)

/-- `MemStat.finalize`. -/
def MemStat.finalize (ms : MemStat) : MemStat := ms

/-- `NetStat.process`; the index expressions `tab[1]` and `tab[9]` panic on a line of
fewer fields, and the error of the first `ParseInt` is overwritten by the second. -/
def NetStat.process (ns : NetStat) (line : String) : Option (NetStat × Option GoError) :=
  if contains line ":" && !contains line "lo:" then
    let tab := fields line
    match tab.get? 1, tab.get? 9 with
    | some f1, some f9 =>
      let rx := parseInt f1
      let tx := parseInt f9
      some ({ rxTotal := wrap64 (ns.rxTotal + rx.1), txTotal := wrap64 (ns.txTotal + tx.1) },
        tx.2.map GoError.num)
    | _, _ => none
  else some (ns, none)

/-- `NetStat.finalize`. -/
def NetStat.finalize (ns : NetStat) : NetStat := ns

/-- The CPU reducer as a `LineProcessor`. -/
def cpuLP : LineProcessor (GoMap CpuStat) (GoMap CpuStat) :=
  { process := fun m line => some (CpuLineProcessor.process m line)
    finalize := CpuLineProcessor.finalize }

/-- The memory reducer as a `LineProcessor`. -/
def memLP : LineProcessor MemStat MemStat :=
  { process := fun ms line => some (MemStat.process ms line)
    finalize := MemStat.finalize }

/-- The network reducer as a `LineProcessor`. -/
def netLP : LineProcessor NetStat NetStat :=
  { process := NetStat.process
    finalize := NetStat.finalize }

/-- The lines `ReadString('\n')` delivers before it reports the end of the file: the
pieces of the text that end in a line feed. What follows the last line feed comes with
`io.EOF` and is never processed. -/
def readLines (content : String) : List String :=
  ((splitLinesL content.toList).dropLast).map String.mk

/-- The loop of `processFileLines` over the lines read: each one is trimmed and handed to
`process`, whose error is overwritten by the next read. -/
def feedLines {σ ρ : Type} (lp : LineProcessor σ ρ) : List String → σ → Option σ
  | [], s => some s
  | line :: rest, s =>
    match lp.process s (trimSpace line) with
    | none => none
    | some (s', _) => feedLines lp rest s'

/-- `processFileLines` on the reducer `lp` in state `s`; `file` is the text of the file,
or `none` when it cannot be opened. The result is the pair `(ret, err)`, or `none` when a
`process` call panics. -/
def processFileLines {σ ρ : Type} (file : Option String) (lp : LineProcessor σ ρ) (s : σ) :
    Option (ρ × Option GoError) :=
  match file with
  | none => some (lp.finalize s, some .invalidFile)
  | some content => (feedLines lp (readLines content) s).map fun s' => (lp.finalize s', none)

/-- `getCpusStatsMap` on the text of `/proc/stat`. -/
def getCpusStatsMap (file : Option String) : Option (GoMap CpuStat × Option GoError) :=
  processFileLines file cpuLP []

/-- `getMemStats` on the text of `/proc/meminfo`. -/
def getMemStats (file : Option String) : Option (MemStat × Option GoError) :=
  processFileLines file memLP { total := 0, free := 0 }

/-- `getNetStats` on the text of `/proc/net/dev`. -/
def getNetStats (file : Option String) : Option (NetStat × Option GoError) :=
  processFileLines file netLP { txTotal := 0, rxTotal := 0 }

/-! ## Notions of the specification -/

/-- The unit names of the rate formatter, by power of 1024. -/
def unitName : Nat → String
  | 0 => "Byte"
  | 1 => "KB"
  | 2 => "MB"
  | 3 => "GB"
  | _ => "TB"

/-- The largest of the units `1024^0 .. 1024^4` whose threshold `b` meets, and bytes when
it meets none. -/
def rateUnit (b : Int) : Nat :=
  ((List.range 5).filter fun k => decide ((1024 : Int) ^ k ≤ b)).foldl max 0

/-- The push of the chart histories: prepend the sample, keep the first `c` entries. -/
def push {α : Type} (c : Nat) (d : List α) (v : α) : List α := (v :: d).take c

/-- A field: a non-empty run of non-space characters. -/
def IsToken (t : List Char) : Prop := t ≠ [] ∧ ∀ c ∈ t, isSpace c = false

/-- A run of `n + 1` spaces. -/
def gap (n : Nat) : String := String.mk (List.replicate (n + 1) ' ')

/-- The line of `/proc/meminfo` for the key `key` (colon included) and `n` kilobytes:
key, value and the unit `kB`, separated by runs of `g1 + 1` and `g2 + 1` spaces. -/
def memLine (key : String) (g1 : Nat) (n : Nat) (g2 : Nat) : String :=
  key ++ gap g1 ++ toString n ++ gap g2 ++ "kB"

/-- An interface line of `/proc/net/dev`: the number of leading spaces, the interface
name and the counters (receive bytes first, transmit bytes ninth), each with the number
of extra spaces before it. -/
structure IfaceLine where
  lead : Nat
  name : String
  cells : List (Nat × Nat)

/-- The counters of an interface line. -/
def IfaceLine.counters (l : IfaceLine) : List Nat := l.cells.map Prod.snd

/-- The counters of an interface line, each preceded by a run of spaces. -/
def countersText : List (Nat × Nat) → String
  | [] => ""
  | c :: cs => gap c.1 ++ toString c.2 ++ countersText cs

/-- The text of an interface line without its leading spaces: the name, a colon, the
counters. -/
def IfaceLine.body (l : IfaceLine) : String := l.name ++ ":" ++ countersText l.cells

/-- The text of an interface line. -/
def IfaceLine.text (l : IfaceLine) : String := String.mk (List.replicate l.lead ' ') ++ l.body

/-- Receive bytes: field 2 of the line. -/
def IfaceLine.rx (l : IfaceLine) : Int := (l.counters.getD 0 0 : Nat)

/-- Transmit bytes: field 10 of the line. -/
def IfaceLine.tx (l : IfaceLine) : Int := (l.counters.getD 8 0 : Nat)

/-- A well-formed interface line: a non-empty name without white space or colon, at
least nine counters, every counter below `2^63`. -/
def IfaceLine.WF (l : IfaceLine) : Prop :=
  l.name.toList ≠ [] ∧ (∀ c ∈ l.name.toList, isSpace c = false ∧ c ≠ ':') ∧
    9 ≤ l.counters.length ∧ ∀ c ∈ l.counters, c < 2 ^ 63

/-- Whether a name ends in `lo`, by recursion on the name. -/
def endsInLoL : List Char → Bool
  | [] => false
  | c :: cs => decide (c :: cs = ['l', 'o']) || endsInLoL cs

/-- Whether the interface name ends in `lo`. -/
def IfaceLine.endsInLo (l : IfaceLine) : Bool := "lo".toList.isSuffixOf l.name.toList

/-- The lines the network reducer counts: those whose name does not end in `lo`. -/
def countedLines (ls : List IfaceLine) : List IfaceLine := ls.filter fun l => !l.endsInLo

/-- A finite float that is not negative: its sign bit may be set only on a zero. -/
def Fl.Nonneg (x : Fl) : Prop := ∃ s m e, x = Fl.fin s m e ∧ (s = true → m = 0)

/-- A float that is a zero of either sign. -/
def Fl.IsZero (x : Fl) : Prop := ∃ s e, x = Fl.fin s 0 e

/-- A delta component of integer counters: a non-negative float that is zero or lies
between 1 and `2^65`. -/
def CounterDelta (x : Fl) : Prop :=
  x.Nonneg ∧ (x.toRat = 0 ∨ (1 ≤ x.toRat ∧ x.toRat ≤ 2 ^ 65))

/-- A finite float whose value is an integer of magnitude at most `B`. -/
def Fl.IsIntUpTo (B : ℚ) (x : Fl) : Prop :=
  ∃ (s : Bool) (m : Nat) (e : Int) (M : Nat),
    x = Fl.fin s m e ∧ (m : ℚ) * (2 : ℚ) ^ e = M ∧ (M : ℚ) ≤ B

/-- The counters the CPU reducer stores: `float32` conversions of `int64` values. -/
def CpuStat.OfInt64 (c : CpuStat) : Prop :=
  ∃ u n s i : Int, InInt64 u ∧ InInt64 n ∧ InInt64 s ∧ InInt64 i ∧
    c = ⟨F32.ofInt u, F32.ofInt n, F32.ofInt s, F32.ofInt i⟩

/-- A usable delta: four delta components of integer counters, not all zero. -/
def CpuStat.UsableDelta (c : CpuStat) : Prop :=
  CounterDelta c.user ∧ CounterDelta c.nice ∧ CounterDelta c.system ∧ CounterDelta c.idle ∧
    0 < c.user.toRat + c.nice.toRat + c.system.toRat + c.idle.toRat

/-! ## Sample states -/

/-- A network chart of width 10 after a first update with totals 500. -/
def netChart500 : NetChart :=
  { rxData := [0], rxTitle := "Rx 0 Byte/s", txData := [0], txTitle := "Tx 0 Byte/s",
    width := 10, txTotal := 500, rxTotal := 500 }

/-- A memory chart of width 7 (capacity 5) after the samples 1 to 6. -/
def memChartSix : MemChart := { percent := 6, data := [6, 5, 4, 3, 2], width := 7 }

/-- The counters-and-percentages state with the aggregate label at 50% user, 50% idle. -/
def cpuHalf : CpusStats :=
  { stat := [("cpu", ⟨F32.ofInt 150, F32.ofInt 0, F32.ofInt 0, F32.ofInt 150⟩)]
    proc := [("cpu", ⟨F32.ofInt 50, F32.ofInt 0, F32.ofInt 0, F32.ofInt 50⟩)] }

/-- The interface line of `eth0` with 100 bytes received and 200 sent. -/
def eth0Line : IfaceLine :=
  { lead := 2, name := "eth0",
    cells := [(0, 100), (3, 1), (0, 0), (0, 0), (0, 0), (0, 0), (0, 0), (0, 0), (1, 200),
      (0, 1), (0, 0), (0, 0), (0, 0), (0, 0), (0, 0), (0, 0)] }

/-- The interface line of an interface named `foolo` with 7 bytes received and 9 sent. -/
def fooloLine : IfaceLine :=
  { lead := 1, name := "foolo",
    cells := [(0, 7), (0, 1), (0, 0), (0, 0), (0, 0), (0, 0), (0, 0), (0, 0), (0, 9),
      (0, 1), (0, 0), (0, 0), (0, 0), (0, 0), (0, 0), (0, 0)] }

/-- The interface line of the loopback interface with 5 bytes received and sent. -/
def loLine : IfaceLine :=
  { lead := 4, name := "lo",
    cells := [(0, 5), (0, 1), (0, 0), (0, 0), (0, 0), (0, 0), (0, 0), (0, 0), (0, 5),
      (0, 1), (0, 0), (0, 0), (0, 0), (0, 0), (0, 0), (0, 0)] }

/-- The counters `{user:100, nice:0, system:0, idle:100}` under the label `cpu`. -/
def counters100 : GoMap CpuStat :=
  [("cpu", ⟨F32.ofInt 100, F32.ofInt 0, F32.ofInt 0, F32.ofInt 100⟩)]

/-- The counters `{user:150, nice:0, system:0, idle:150}` under the label `cpu`. -/
def counters150 : GoMap CpuStat :=
  [("cpu", ⟨F32.ofInt 150, F32.ofInt 0, F32.ofInt 0, F32.ofInt 150⟩)]

/-- The counters `{user:100, nice:0, system:0, idle:250}`: `user` has gone down from 150. -/
def countersDown : GoMap CpuStat :=
  [("cpu", ⟨F32.ofInt 100, F32.ofInt 0, F32.ofInt 0, F32.ofInt 250⟩)]

/-- The counters `{user:151, nice:1, system:1, idle:150}`: one tick of `user`, `nice` and
`system` each after `counters150`. -/
def countersThirds : GoMap CpuStat :=
  [("cpu", ⟨F32.ofInt 151, F32.ofInt 1, F32.ofInt 1, F32.ofInt 150⟩)]

/-- The counters `{user:150, nice:0, system:0, idle:250}`. -/
def countersUp : GoMap CpuStat :=
  [("cpu", ⟨F32.ofInt 150, F32.ofInt 0, F32.ofInt 0, F32.ofInt 250⟩)]


/-! ## Go maps -/

namespace GoMap
variable {V : Type}

theorem find_nil (k : String) : find ([] : GoMap V) k = none := rfl

theorem find_cons (k k' : String) (w : V) (m : GoMap V) :
    find ((k', w) :: m) k = if k = k' then some w else find m k := by
  unfold find
  rw [List.lookup_cons]
  by_cases h : k = k'
  · simp [h]
  · have hb : (k == k') = false := by simpa using h
    simp [h, hb]

theorem find_set_self (m : GoMap V) (k : String) (v : V) : (m.set k v).find k = some v := by
  induction m with
  | nil => simp [set, find_cons]
  | cons a m ih =>
    obtain ⟨k', w⟩ := a
    unfold set
    by_cases h : k = k'
    · simp [h, find_cons]
    · simp [h, find_cons, ih]

theorem find_set_ne (m : GoMap V) {k k' : String} (v : V) (h : k' ≠ k) :
    (m.set k v).find k' = m.find k' := by
  induction m with
  | nil => simp [set, find_cons, h, find_nil]
  | cons a m ih =>
    obtain ⟨k0, w⟩ := a
    unfold set
    by_cases h0 : k = k0
    · subst h0; simp [find_cons, h]
    · simp [h0, find_cons, ih]

theorem get_set_self (z : V) (m : GoMap V) (k : String) (v : V) : (m.set k v).get z k = v := by
  simp [get, find_set_self]

theorem get_set_ne (z : V) (m : GoMap V) {k k' : String} (v : V) (h : k' ≠ k) :
    (m.set k v).get z k' = m.get z k' := by
  simp [get, find_set_ne m v h]

theorem mem_keys_iff (m : GoMap V) (k : String) : k ∈ m.keys ↔ ∃ v, m.find k = some v := by
  unfold keys
  rw [List.mem_dedup]
  induction m with
  | nil => simp [find_nil]
  | cons a m ih =>
    obtain ⟨k0, w⟩ := a
    simp only [List.map_cons, List.mem_cons, find_cons]
    by_cases h : k = k0
    · simp [h]
    · simp [h, ih]

theorem nodup_keys (m : GoMap V) : m.keys.Nodup := List.nodup_dedup _

end GoMap

/-! ## Basic facts of the runtime model -/

theorem wrap64_of_inInt64 {x : Int} (h : InInt64 x) : wrap64 x = x := by
  unfold InInt64 at h
  unfold wrap64
  omega

theorem wrap64_add_wrap64 (a b : Int) : wrap64 (wrap64 a + b) = wrap64 (a + b) := by
  unfold wrap64
  omega

theorem inInt64_wrap64 (x : Int) : InInt64 (wrap64 x) := by
  unfold InInt64 wrap64
  omega

theorem shiftIn_eq {α : Type} (z : α) (d : List α) (v : α) : shiftIn z d v = v :: d := by
  unfold shiftIn
  cases d with
  | nil => simp
  | cons a t =>
    simp only [List.cons_append, List.drop_succ_cons, List.drop_zero, List.length_cons,
      List.length_append, List.length_nil]
    have h : min (t.length + (0 + 1)) (t.length + (0 + 1) + 1) = t.length + 1 := by omega
    rw [h]
    simp [List.take_append_eq_append_take, List.take_of_length_le]

theorem capTo_of_two_le {α : Type} (d : List α) {w : Int} (hw : 2 ≤ w) :
    capTo d w = some (d.take (w - 2).toNat) := by
  unfold capTo
  by_cases h : (d.length : Int) > w - 2
  · rw [if_pos h, if_neg (by omega)]
  · rw [if_neg h, List.take_of_length_le (by omega)]

theorem capTo_shiftIn {α : Type} (z : α) (d : List α) (v : α) {w : Int} (hw : 2 ≤ w) :
    capTo (shiftIn z d v) w = some (push (w - 2).toNat d v) := by
  rw [shiftIn_eq, capTo_of_two_le _ hw]
  rfl

theorem push_length_le {α : Type} (c : Nat) (d : List α) (v : α) : (push c d v).length ≤ c := by
  unfold push
  simp [List.length_take]

/-! ## The rate formatter -/

theorem rateUnit_cases (b : Int) :
    (b < 1024 → rateUnit b = 0) ∧
    (1024 ≤ b → b < 1024 ^ 2 → rateUnit b = 1) ∧
    (1024 ^ 2 ≤ b → b < 1024 ^ 3 → rateUnit b = 2) ∧
    (1024 ^ 3 ≤ b → b < 1024 ^ 4 → rateUnit b = 3) ∧
    (1024 ^ 4 ≤ b → rateUnit b = 4) := by
  have hr : List.range 5 = [0, 1, 2, 3, 4] := by decide
  unfold rateUnit
  rw [hr]
  simp only [List.filter_cons, List.filter_nil]
  norm_num
  refine ⟨?_, ?_, ?_, ?_, ?_⟩ <;> intros <;> split_ifs <;> first | omega | rfl

theorem formatRate_eq_unit (b : Int) (hb : 0 ≤ b) :
    formatRate b
      = fmtInt (b / 1024 ^ rateUnit b) ++ " " ++ unitName (rateUnit b) ++ "/s" := by
  obtain ⟨h0, h1, h2, h3, h4⟩ := rateUnit_cases b
  unfold formatRate
  by_cases c0 : b < 1024
  · rw [if_pos c0, h0 c0]; simp [unitName]
  rw [if_neg c0]
  by_cases c1 : b < 1024 * 1024
  · rw [if_pos c1, h1 (by omega) (by omega), Int.tdiv_eq_ediv hb (by norm_num)]; simp [unitName]
  rw [if_neg c1]
  by_cases c2 : b < 1024 * 1024 * 1024
  · rw [if_pos c2, h2 (by omega) (by omega), Int.tdiv_eq_ediv hb (by norm_num)]; simp [unitName]
  rw [if_neg c2]
  by_cases c3 : b < 1024 * 1024 * 1024 * 1024
  · rw [if_pos c3, h3 (by omega) (by omega), Int.tdiv_eq_ediv hb (by norm_num)]; simp [unitName]
  rw [if_neg c3, h4 (by omega), Int.tdiv_eq_ediv hb (by norm_num)]; simp [unitName]

/-- C4: for a non-negative `b`, `formatRate b` is `"<N> <unit>/s"` with the unit the largest
one whose threshold `b` meets (bytes below 1024, then KB, MB, GB, and TB from `1024^4` on)
and `N` the integer quotient of `b` by that unit's threshold `1024^k`. -/
theorem formatRate_largest_unit (b : Int) (hb : 0 ≤ b) :
    formatRate b
        = fmtInt (b / 1024 ^ rateUnit b) ++ " " ++ unitName (rateUnit b) ++ "/s" ∧
      (b < 1024 → rateUnit b = 0) ∧
      (1024 ≤ b → b < 1024 ^ 2 → rateUnit b = 1) ∧
      (1024 ^ 2 ≤ b → b < 1024 ^ 3 → rateUnit b = 2) ∧
      (1024 ^ 3 ≤ b → b < 1024 ^ 4 → rateUnit b = 3) ∧
      (1024 ^ 4 ≤ b → rateUnit b = 4) :=
  ⟨formatRate_eq_unit b hb, rateUnit_cases b⟩

/-- Witness of C4 at `b = 5 * 1024^2 + 7`, which is formatted as 5 MB/s. -/
theorem formatRate_largest_unit_witness :
    (0 : Int) ≤ 5242887 ∧ formatRate 5242887 = "5 MB/s" ∧ rateUnit 5242887 = 2 :=
  ⟨by decide,
    (formatRate_largest_unit 5242887 (by decide)).1.trans (by decide),
    (formatRate_largest_unit 5242887 (by decide)).2.2.2.1 (by decide) (by decide)⟩

/-- C5 as stated fails: 1000 is below the first threshold, so `formatRate 1000` is not
`"0 KB/s"`. -/
theorem formatRate_1000_not_zero_KB :
    ¬ (formatRate 1000 = "0 KB/s" ∧ formatRate 2048 = "2 KB/s") := by
  decide

/-- C5, amended: `formatRate 1000` is `"1000 Byte/s"`, `formatRate 1024` is `"1 KB/s"`
and `formatRate 2048` is `"2 KB/s"`. -/
theorem formatRate_examples :
    formatRate 1000 = "1000 Byte/s" ∧ formatRate 1024 = "1 KB/s" ∧
      formatRate 2048 = "2 KB/s" := by
  decide

/-! ## The network chart -/

theorem NetChart.update_netChart (nc : NetChart) (ns : NetStat) (hw : 2 ≤ nc.width) :
    nc.Update ns = some { nc with
      rxTotal := ns.rxTotal, txTotal := ns.txTotal,
      rxData := push (nc.width - 2).toNat nc.rxData (nc.rxRate ns),
      rxTitle := "Rx " ++ formatRate (nc.rxRate ns),
      txData := push (nc.width - 2).toNat nc.txData (nc.txRate ns),
      txTitle := "Tx " ++ formatRate (nc.txRate ns) } := by
  unfold NetChart.Update
  simp only [capTo_shiftIn _ _ _ hw]

theorem sub_inInt64 {a b : Int} (ha : 0 ≤ a ∧ a < 2 ^ 63) (hb : 0 ≤ b ∧ b < 2 ^ 63) :
    InInt64 (a - b) := by
  unfold InInt64
  omega

/-- C6 as stated fails: after a first update with totals 0 a previous total exists, yet
the second update, with totals 1500, pushes the rate 0 and not `1500 - 0`. -/
theorem netChart_zero_previous_total :
    ((NewNetChart 10).Update { txTotal := 0, rxTotal := 0 }).bind
        (fun nc => (nc.Update { txTotal := 1500, rxTotal := 1500 }).map
          fun nc' => (nc.rxTotal, nc.txTotal, nc'.rxData, nc'.txData))
      = some (0, 0, [0, 0], [0, 0]) := by
  decide

/-- C6, amended: an update of a chart of width at least 2, with totals in the non-negative
`int64` range, pushes `currentTotal - previousTotal` for a direction whose stored previous
total is non-zero and `0` for one whose stored previous total is zero, and stores the
current totals; the stored totals of a new chart are zero, so its first update pushes 0. -/
theorem netChart_rates (nc : NetChart) (ns : NetStat) (hw : 2 ≤ nc.width)
    (hpr : 0 ≤ nc.rxTotal ∧ nc.rxTotal < 2 ^ 63) (hpt : 0 ≤ nc.txTotal ∧ nc.txTotal < 2 ^ 63)
    (hcr : 0 ≤ ns.rxTotal ∧ ns.rxTotal < 2 ^ 63) (hct : 0 ≤ ns.txTotal ∧ ns.txTotal < 2 ^ 63) :
    (∃ nc', nc.Update ns = some nc' ∧
      nc'.rxData = push (nc.width - 2).toNat nc.rxData
        (if nc.rxTotal ≠ 0 then ns.rxTotal - nc.rxTotal else 0) ∧
      nc'.txData = push (nc.width - 2).toNat nc.txData
        (if nc.txTotal ≠ 0 then ns.txTotal - nc.txTotal else 0) ∧
      nc'.rxTotal = ns.rxTotal ∧ nc'.txTotal = ns.txTotal) ∧
    (∀ w : Int, (NewNetChart w).rxTotal = 0 ∧ (NewNetChart w).txTotal = 0) := by
  refine ⟨⟨_, NetChart.update_netChart nc ns hw, ?_, ?_, rfl, rfl⟩, fun w => ⟨rfl, rfl⟩⟩
  · show push _ _ (nc.rxRate ns) = _
    unfold NetChart.rxRate
    rw [wrap64_of_inInt64 (sub_inInt64 hcr hpr)]
  · show push _ _ (nc.txRate ns) = _
    unfold NetChart.txRate
    rw [wrap64_of_inInt64 (sub_inInt64 hct hpt)]

/-- Witness of C6: totals 500 then 1500 one tick apart give the rate 1000. -/
theorem netChart_rates_witness :
    ∃ nc', netChart500.Update { txTotal := 1500, rxTotal := 1500 } = some nc' ∧
      nc'.rxData = [1000, 0] ∧ nc'.txData = [1000, 0] := by
  obtain ⟨⟨nc', h, hr, ht, -, -⟩, -⟩ := netChart_rates netChart500
    { txTotal := 1500, rxTotal := 1500 } (by decide) (by decide) (by decide) (by decide)
    (by decide)
  exact ⟨nc', h, hr.trans (by decide), ht.trans (by decide)⟩

/-! ## The chart histories -/

theorem MemChart.update_memChart (mte : MemChart) (ms : MemStat) (hm : ms.total ≠ 0)
    (hw : 2 ≤ mte.width) :
    mte.Update ms = some { mte with
      percent := ms.usedPercent,
      data := push (mte.width - 2).toNat mte.data ms.usedPercent } := by
  unfold MemChart.Update
  rw [if_neg hm]
  simp only [capTo_shiftIn _ _ _ hw, Option.map_some']

/-- C9 as stated fails for the memory chart: an update with a snapshot whose total is 0
panics on the integer division that computes the sample, and prepends nothing. The start
of the program can pass such a snapshot: the error of `getMemStats` is dropped there, and
a source that cannot be opened or that holds no usable `MemTotal:` line leaves the total
at 0. -/
theorem memChart_zero_total_panics :
    (NewMemChart 7).Update { total := 0, free := 0 } = none ∧
      memChartSix.Update { total := 0, free := 250 } = none ∧
      getMemStats none = some ({ total := 0, free := 0 }, some GoError.invalidFile) ∧
      getMemStats (some "MemFree: 250 kB\n") = some ({ total := 0, free := 250 }, none) := by
  decide

/-- C9, amended: on a memory chart and a network chart of capacity `c = width - 2 ≥ 0`,
every update of the network chart, and every update of the memory chart with a snapshot
of non-zero total, prepends the new sample to each series and keeps its first `c`
entries, so a series never exceeds `c` entries; an update of the memory chart with a
snapshot of total 0 panics. With capacity 5, pushing 1 to 7 in order leaves
`[7, 6, 5, 4, 3]`. -/
theorem chart_update_push (mte : MemChart) (ms : MemStat) (nc : NetChart) (ns : NetStat)
    (hmw : 0 ≤ mte.width - 2) (hnw : 0 ≤ nc.width - 2) :
    (ms.total = 0 → mte.Update ms = none) ∧
    (ms.total ≠ 0 → ∃ mte', mte.Update ms = some mte' ∧
      mte'.data = (ms.usedPercent :: mte.data).take (mte.width - 2).toNat ∧
      mte'.data.length ≤ (mte.width - 2).toNat ∧ mte'.width = mte.width) ∧
    (∃ nc', nc.Update ns = some nc' ∧
      nc'.rxData = (nc.rxRate ns :: nc.rxData).take (nc.width - 2).toNat ∧
      nc'.txData = (nc.txRate ns :: nc.txData).take (nc.width - 2).toNat ∧
      nc'.rxData.length ≤ (nc.width - 2).toNat ∧
      nc'.txData.length ≤ (nc.width - 2).toNat ∧ nc'.width = nc.width) ∧
    ([1, 2, 3, 4, 5, 6, 7].foldl (fun d v => ((v :: d).take 5 : List Int)) [] = [7, 6, 5, 4, 3]) := by
  refine ⟨?_, ?_, ⟨_, NetChart.update_netChart nc ns (by omega), rfl, rfl, ?_, ?_, rfl⟩,
    by decide⟩
  · intro h0
    unfold MemChart.Update
    rw [if_pos h0]
  · intro hm
    exact ⟨_, MemChart.update_memChart mte ms hm (by omega), rfl, push_length_le _ _ _, rfl⟩
  · exact push_length_le _ _ _
  · exact push_length_le _ _ _

/-- Witness of C9: the seventh sample, `(100 - 93) * 100 / 100 = 7`, on a memory chart of
capacity 5 that holds the samples 1 to 6, and an update of a network chart of width 10. -/
theorem chart_update_push_witness :
    (∃ mte', memChartSix.Update { total := 100, free := 93 } = some mte' ∧
        mte'.data = [7, 6, 5, 4, 3]) ∧
      ∃ nc', netChart500.Update { txTotal := 1500, rxTotal := 1500 } = some nc' ∧
        nc'.rxData = [1000, 0] := by
  obtain ⟨-, hmem, ⟨n', hn, hr, -⟩, -⟩ := chart_update_push memChartSix
    { total := 100, free := 93 } netChart500 { txTotal := 1500, rxTotal := 1500 }
    (by decide) (by decide)
  obtain ⟨m', hm, hd, -, -⟩ := hmem (by decide)
  exact ⟨⟨m', hm, hd.trans (by decide)⟩, n', hn, hr.trans (by decide)⟩

/-- Seven updates of a new memory chart of width 7 with the samples 1 to 7. -/
theorem memChart_seven_updates :
    ([99, 98, 97, 96, 95, 94, 93].foldl
        (fun (o : Option MemChart) (free : Int) => o.bind fun m => m.Update { total := 100, free := free })
        (some (NewMemChart 7))).map MemChart.data = some [7, 6, 5, 4, 3] := by
  decide

theorem CpuChart.fold_updateKey_of_not_mem (f : String → CpuStat) (l : List String)
    (cc : CpuChart) (h : "cpu" ∉ l) :
    (l.map fun k => (k, f k)).foldl CpuChart.updateKey cc = cc := by
  induction l generalizing cc with
  | nil => rfl
  | cons a l ih =>
    simp only [List.mem_cons, not_or] at h
    simp only [List.map_cons, List.foldl_cons]
    have ha : CpuChart.updateKey cc (a, f a) = cc := by
      unfold CpuChart.updateKey
      rw [if_neg (fun e => h.1 e.symm)]
    rw [ha, ih cc h.2]

theorem CpuChart.fold_updateKey_of_mem (f : String → CpuStat) (l : List String)
    (cc : CpuChart) (hn : l.Nodup) (h : "cpu" ∈ l) :
    (l.map fun k => (k, f k)).foldl CpuChart.updateKey cc
      = CpuChart.updateKey cc ("cpu", f "cpu") := by
  induction l generalizing cc with
  | nil => simp at h
  | cons a l ih =>
    rw [List.nodup_cons] at hn
    simp only [List.map_cons, List.foldl_cons]
    by_cases ha : a = "cpu"
    · subst ha
      exact CpuChart.fold_updateKey_of_not_mem f l _ hn.1
    · have hc : CpuChart.updateKey cc (a, f a) = cc := by
        unfold CpuChart.updateKey
        rw [if_neg ha]
      rw [hc]
      refine ih cc hn.2 ?_
      rcases List.mem_cons.1 h with e | e
      · exact absurd e.symm ha
      · exact e

/-- An update with an aggregate `cpu` utilisation prepends one sample and truncates
nothing: the series grows by one entry, whatever the width. -/
theorem CpuChart.Update_data (cc : CpuChart) (cs : CpusStats) (val : CpuStat)
    (h : cs.proc.find "cpu" = some val) :
    cc.Update cs = { cc with
      percent := Fl.toInt (F32.add (F32.add val.user val.nice) val.system),
      data := F64.ofInt (Fl.toInt (F32.add (F32.add val.user val.nice) val.system)) :: cc.data } := by
  unfold CpuChart.Update
  rw [CpuChart.fold_updateKey_of_mem _ _ _ (GoMap.nodup_keys _)
    ((GoMap.mem_keys_iff _ _).2 ⟨val, h⟩)]
  unfold CpuChart.updateKey
  simp only [if_true, shiftIn_eq, GoMap.get, h, Option.getD_some]

theorem CpuChart.Update_length (cc : CpuChart) (cs : CpusStats) (val : CpuStat)
    (h : cs.proc.find "cpu" = some val) :
    (cc.Update cs).data.length = cc.data.length + 1 := by
  rw [CpuChart.Update_data cc cs val h]
  rfl

/-- C10 fails on the code: a CPU chart of width 7 (capacity 5) holds seven samples after
seven updates, each with an aggregate `cpu` utilisation (50% busy) present. -/
theorem cpuChart_exceeds_capacity :
    ((List.range 7).foldl (fun cc _ => cc.Update cpuHalf) (NewCpuChart 7)).data
        = List.replicate 7 (F64.ofInt 50) ∧
      ((NewCpuChart 7).width - 2 : Int) = 5 := by
  decide

/-! ## Rounding error of binary32 arithmetic -/

theorem bitLenGo_zero (fuel : Nat) : bitLenGo fuel 0 = 0 := by
  cases fuel <;> simp [bitLenGo]

theorem bitLenGo_bounds (fuel : Nat) :
    ∀ n, n ≤ fuel → n < 2 ^ bitLenGo fuel n ∧ (n ≠ 0 → 2 ^ (bitLenGo fuel n - 1) ≤ n) := by
  induction fuel with
  | zero =>
    intro n hn
    have : n = 0 := by omega
    subst this
    simp [bitLenGo]
  | succ fuel ih =>
    intro n hn
    by_cases h0 : n = 0
    · subst h0; simp [bitLenGo]
    · rw [bitLenGo, if_neg h0]
      obtain ⟨h1, h2⟩ := ih (n / 2) (by omega)
      refine ⟨?_, fun _ => ?_⟩
      · rw [pow_succ]; omega
      · rw [Nat.add_sub_cancel]
        by_cases h3 : n / 2 = 0
        · rw [h3, bitLenGo_zero]; simp; omega
        · have h4 := h2 h3
          have h5 : 0 < bitLenGo fuel (n / 2) := by
            by_contra h
            have : bitLenGo fuel (n / 2) = 0 := by omega
            rw [this] at h1
            simp at h1
            exact h3 h1
          obtain ⟨b, hb⟩ : ∃ b, bitLenGo fuel (n / 2) = b + 1 := ⟨_, (Nat.succ_pred_eq_of_pos h5).symm⟩
          rw [hb] at h4 ⊢
          rw [Nat.add_sub_cancel] at h4
          rw [pow_succ]
          omega

theorem bitLen_bounds (n : Nat) (hn : 0 < n) :
    0 < bitLen n ∧ 2 ^ (bitLen n - 1) ≤ n ∧ n < 2 ^ bitLen n := by
  obtain ⟨h1, h2⟩ := bitLenGo_bounds n n le_rfl
  refine ⟨?_, h2 (by omega), h1⟩
  by_contra h
  have : bitLen n = 0 := by omega
  unfold bitLen at this
  rw [this] at h1
  simp at h1
  omega

theorem bitLen_bounds_q (n : Nat) (hn : 0 < n) :
    (2 : ℚ) ^ ((bitLen n : Int) - 1) ≤ n ∧ (n : ℚ) < (2 : ℚ) ^ (bitLen n : Int) := by
  obtain ⟨h0, h1, h2⟩ := bitLen_bounds n hn
  constructor
  · have : ((bitLen n : Int) - 1) = ((bitLen n - 1 : Nat) : Int) := by omega
    rw [this, zpow_natCast]
    exact_mod_cast h1
  · rw [zpow_natCast]
    exact_mod_cast h2

theorem two_zpow_pos (e : Int) : (0 : ℚ) < (2 : ℚ) ^ e := zpow_pos (by norm_num) e

theorem two_zpow_toNat (k : Int) (hk : 0 ≤ k) : ((2 ^ k.toNat : Nat) : ℚ) = (2 : ℚ) ^ k := by
  rw [Nat.cast_pow, ← zpow_natCast, Int.toNat_of_nonneg hk]
  rfl

theorem expOf_spec (a d : Nat) (ha : 0 < a) (hd : 0 < d) :
    (2 : ℚ) ^ expOf a d ≤ (a : ℚ) / d ∧ (a : ℚ) / d < (2 : ℚ) ^ (expOf a d + 1) := by
  obtain ⟨a1, a2⟩ := bitLen_bounds_q a ha
  obtain ⟨d1, d2⟩ := bitLen_bounds_q d hd
  have hdq : (0 : ℚ) < d := by exact_mod_cast hd
  have haq : (0 : ℚ) < a := by exact_mod_cast ha
  have two : (2 : ℚ) ≠ 0 := by norm_num
  -- the coarse bounds from the bit lengths
  have up : (a : ℚ) / d < (2 : ℚ) ^ ((bitLen a : Int) - (bitLen d : Int) + 1) := by
    rw [div_lt_iff₀ hdq]
    have e : (2 : ℚ) ^ ((bitLen a : Int) - (bitLen d : Int) + 1)
        = (2 : ℚ) ^ (bitLen a : Int) / (2 : ℚ) ^ ((bitLen d : Int) - 1) := by
      rw [← zpow_sub₀ two]; congr 1; ring
    rw [e, div_mul_eq_mul_div, lt_div_iff₀ (two_zpow_pos _)]
    calc (a : ℚ) * (2 : ℚ) ^ ((bitLen d : Int) - 1) ≤ a * d := by
          exact mul_le_mul_of_nonneg_left d1 haq.le
      _ < (2 : ℚ) ^ (bitLen a : Int) * d := by
          exact mul_lt_mul_of_pos_right a2 hdq
  have lo : (2 : ℚ) ^ ((bitLen a : Int) - (bitLen d : Int) - 1) ≤ (a : ℚ) / d := by
    rw [le_div_iff₀ hdq]
    have e : (2 : ℚ) ^ ((bitLen a : Int) - (bitLen d : Int) - 1)
        = (2 : ℚ) ^ ((bitLen a : Int) - 1) / (2 : ℚ) ^ (bitLen d : Int) := by
      rw [← zpow_sub₀ two]; congr 1; ring
    rw [e, div_mul_eq_mul_div, div_le_iff₀ (two_zpow_pos _)]
    calc (2 : ℚ) ^ ((bitLen a : Int) - 1) * d ≤ a * d := by
          exact mul_le_mul_of_nonneg_right a1 hdq.le
      _ ≤ a * (2 : ℚ) ^ (bitLen d : Int) := by
          exact mul_le_mul_of_nonneg_left d2.le haq.le
  unfold expOf
  simp only
  set k : Int := (bitLen a : Int) - (bitLen d : Int) with hk
  by_cases hk0 : 0 ≤ k
  · rw [if_pos hk0]
    by_cases hge : d * 2 ^ k.toNat ≤ a
    · simp only [hge, decide_True, if_true]
      refine ⟨?_, up⟩
      rw [le_div_iff₀ hdq, ← two_zpow_toNat k hk0, mul_comm]
      exact_mod_cast hge
    · simp only [hge, decide_False, Bool.false_eq_true, if_false]
      refine ⟨lo, ?_⟩
      rw [sub_add_cancel, div_lt_iff₀ hdq, ← two_zpow_toNat k hk0, mul_comm]
      exact_mod_cast Nat.lt_of_not_le hge
  · rw [if_neg hk0]
    have hk1 : 0 ≤ -k := by omega
    have e2 : (2 : ℚ) ^ k = 1 / ((2 ^ (-k).toNat : Nat) : ℚ) := by
      rw [two_zpow_toNat (-k) hk1, zpow_neg, one_div, inv_inv]
    have hp : (0 : ℚ) < ((2 ^ (-k).toNat : Nat) : ℚ) := by
      rw [two_zpow_toNat (-k) hk1]; exact two_zpow_pos _
    by_cases hge : d ≤ a * 2 ^ (-k).toNat
    · simp only [hge, decide_True, if_true]
      refine ⟨?_, up⟩
      rw [le_div_iff₀ hdq, e2, div_mul_eq_mul_div, one_mul, div_le_iff₀ hp]
      exact_mod_cast hge
    · simp only [hge, decide_False, Bool.false_eq_true, if_false]
      refine ⟨lo, ?_⟩
      rw [sub_add_cancel, div_lt_iff₀ hdq, e2, div_mul_eq_mul_div, one_mul, lt_div_iff₀ hp]
      exact_mod_cast Nat.lt_of_not_le hge

theorem divNearestEven_nat (n d : Nat) (hd : 0 < d) :
    2 * (d * divNearestEven n d) ≤ 2 * n + d ∧ 2 * n ≤ 2 * (d * divNearestEven n d) + d := by
  have hdiv : d * (n / d) + n % d = n := Nat.div_add_mod n d
  have hr : n % d < d := Nat.mod_lt n hd
  unfold divNearestEven
  simp only
  split_ifs <;> first | omega | (simp only [Nat.mul_add, Nat.mul_one]; omega)

theorem divNearestEven_spec (n d : Nat) (hd : 0 < d) :
    |((divNearestEven n d : Nat) : ℚ) - (n : ℚ) / d| ≤ 1 / 2 := by
  have hdq : (0 : ℚ) < d := by exact_mod_cast hd
  obtain ⟨h1, h2⟩ := divNearestEven_nat n d hd
  have h1q : 2 * ((d : ℚ) * (divNearestEven n d : Nat)) ≤ 2 * n + d := by exact_mod_cast h1
  have h2q : 2 * (n : ℚ) ≤ 2 * ((d : ℚ) * (divNearestEven n d : Nat)) + d := by exact_mod_cast h2
  have u1 : (n : ℚ) / d ≤ (divNearestEven n d : Nat) + 1 / 2 := by
    rw [div_le_iff₀ hdq]; nlinarith
  have u2 : ((divNearestEven n d : Nat) : ℚ) - 1 / 2 ≤ (n : ℚ) / d := by
    rw [le_div_iff₀ hdq]; nlinarith
  rw [abs_le]
  constructor <;> linarith

theorem scaledMant_spec (a d : Nat) (hd : 0 < d) (sh : Int) :
    |((scaledMant a d sh : Nat) : ℚ) - (a : ℚ) / d * (2 : ℚ) ^ sh| ≤ 1 / 2 := by
  unfold scaledMant
  by_cases h : 0 ≤ sh
  · rw [if_pos h]
    have := divNearestEven_spec (a * 2 ^ sh.toNat) d hd
    rw [Nat.cast_mul, two_zpow_toNat sh h] at this
    rwa [div_mul_eq_mul_div]
  · rw [if_neg h]
    have h' : 0 ≤ -sh := by omega
    have := divNearestEven_spec a (d * 2 ^ (-sh).toNat) (Nat.mul_pos hd (Nat.two_pow_pos _))
    rw [Nat.cast_mul, two_zpow_toNat (-sh) h', zpow_neg] at this
    have e : (a : ℚ) / d * (2 : ℚ) ^ sh = (a : ℚ) / (d * ((2 : ℚ) ^ sh)⁻¹) := by
      have := two_zpow_pos sh
      field_simp
    rwa [e]

theorem lowestGo_spec (fuel : Nat) : ∀ (m : Nat) (e : Int),
    ((lowestGo fuel m e).1 : ℚ) * (2 : ℚ) ^ (lowestGo fuel m e).2 = (m : ℚ) * (2 : ℚ) ^ e ∧
      (m ≠ 0 → (lowestGo fuel m e).1 ≠ 0) := by
  induction fuel with
  | zero => intro m e; exact ⟨rfl, id⟩
  | succ fuel ih =>
    intro m e
    rw [lowestGo]
    by_cases h : m % 2 = 0 ∧ m ≠ 0
    · rw [if_pos h]
      obtain ⟨h1, h2⟩ := ih (m / 2) (e + 1)
      refine ⟨?_, fun _ => h2 (by omega)⟩
      rw [h1, zpow_add_one₀ (by norm_num)]
      have hm : (m : ℚ) = 2 * ((m / 2 : Nat) : ℚ) := by
        have : m = 2 * (m / 2) := by omega
        exact_mod_cast this
      rw [hm]
      ring
    · rw [if_neg h]
      exact ⟨rfl, id⟩

theorem lowest_spec (neg : Bool) (m : Nat) (e : Int) :
    ∃ m' e', lowest neg m e = .fin neg m' e' ∧ (m' : ℚ) * (2 : ℚ) ^ e' = (m : ℚ) * (2 : ℚ) ^ e ∧
      (m ≠ 0 → m' ≠ 0) := by
  unfold lowest
  by_cases h : m = 0
  · rw [if_pos h]
    exact ⟨0, 0, rfl, by simp [h], fun h' => absurd h h'⟩
  · rw [if_neg h]
    obtain ⟨h1, h2⟩ := lowestGo_spec m m e
    exact ⟨_, _, rfl, h1, h2⟩

/-- Rounding to binary32 of a positive value `x` of the normal range: the result is the
nearest multiple `mant · 2^t` of the unit in the last place `2^t`, with `2^(t+23) ≤ x`. -/
theorem round32_core (neg : Bool) (a d : Nat) (ha : 0 < a) (hd : 0 < d) (s : Int)
    (hlo : (2 : ℚ) ^ (-126 : Int) ≤ (a : ℚ) / d * (2 : ℚ) ^ s)
    (hhi : (a : ℚ) / d * (2 : ℚ) ^ s < (2 : ℚ) ^ (127 : Int)) :
    ∃ (t : Int) (mant : Nat), roundQ 24 (-126) 127 neg a d s = lowest neg mant t ∧ mant ≠ 0 ∧
      |(mant : ℚ) - (a : ℚ) / d * (2 : ℚ) ^ s * (2 : ℚ) ^ (-t)| ≤ 1 / 2 ∧
      (2 : ℚ) ^ (t + 23) ≤ (a : ℚ) / d * (2 : ℚ) ^ s := by
  have two : (2 : ℚ) ≠ 0 := by norm_num
  have one2 : (1 : ℚ) < 2 := by norm_num
  obtain ⟨e1, e2⟩ := expOf_spec a d ha hd
  have hs := two_zpow_pos s
  set x : ℚ := (a : ℚ) / d * (2 : ℚ) ^ s with hx
  set E : Int := expOf a d + s with hE
  have x1 : (2 : ℚ) ^ E ≤ x := by
    rw [hE, zpow_add₀ two]
    exact mul_le_mul_of_nonneg_right e1 hs.le
  have x2 : x < (2 : ℚ) ^ (E + 1) := by
    have : E + 1 = (expOf a d + 1) + s := by omega
    rw [this, zpow_add₀ two]
    exact mul_lt_mul_of_pos_right e2 hs
  have hE1 : -126 ≤ E := by
    have := lt_of_le_of_lt hlo x2
    rw [zpow_lt_zpow_iff_right₀ one2] at this
    omega
  have hE2 : E ≤ 126 := by
    have := lt_of_le_of_lt x1 hhi
    rw [zpow_lt_zpow_iff_right₀ one2] at this
    omega
  have hmax : max E (-126) = E := max_eq_left hE1
  set t : Int := E - 23 with ht
  have hy : (a : ℚ) / d * (2 : ℚ) ^ (s - t) = x * (2 : ℚ) ^ (-t) := by
    rw [hx, sub_eq_add_neg, zpow_add₀ two, mul_assoc]
  have hm := scaledMant_spec a d hd (s - t)
  rw [hy] at hm
  set mant := scaledMant a d (s - t) with hmant
  have ht' := two_zpow_pos (-t)
  have y1 : (2 : ℚ) ^ (23 : Int) ≤ x * (2 : ℚ) ^ (-t) := by
    have : (23 : Int) = E + (-t) := by omega
    rw [this, zpow_add₀ two]
    exact mul_le_mul_of_nonneg_right x1 ht'.le
  have y2 : x * (2 : ℚ) ^ (-t) < (2 : ℚ) ^ (24 : Int) := by
    have : (24 : Int) = (E + 1) + (-t) := by omega
    rw [this, zpow_add₀ two]
    exact mul_lt_mul_of_pos_right x2 ht'
  rw [abs_le] at hm
  have m1 : (1 : ℚ) ≤ mant := by
    have : (2 : ℚ) ^ (23 : Int) = 8388608 := by norm_num
    have h3 : (0 : ℚ) < mant := by linarith [hm.1]
    have h4 : 0 < mant := by exact_mod_cast h3
    exact_mod_cast h4
  have m2 : mant < 2 ^ 25 := by
    have : (2 : ℚ) ^ (24 : Int) = 16777216 := by norm_num
    have h3 : (mant : ℚ) < 33554432 := by linarith [hm.2]
    have h4 : mant < 33554432 := by exact_mod_cast h3
    exact h4
  have hb : bitLen mant ≤ 25 := by
    obtain ⟨b0, b1, -⟩ := bitLen_bounds mant (by
      have : (0 : ℚ) < mant := by linarith
      exact_mod_cast this)
    have h5 : 2 ^ (bitLen mant - 1) < 2 ^ 25 := lt_of_le_of_lt b1 m2
    have h6 := (Nat.pow_lt_pow_iff_right (by decide : 1 < 2)).1 h5
    omega
  have hmne : mant ≠ 0 := by
    intro h
    rw [h] at m1
    norm_num at m1
  refine ⟨t, mant, ?_, hmne, abs_le.2 hm, ?_⟩
  · unfold roundQ
    rw [if_neg (by omega)]
    simp only [Nat.cast_ofNat]
    have e23 : ((24 : Int) - 1) = 23 := by norm_num
    rw [e23, ← hE, hmax, ← ht, ← hmant, if_neg (by omega)]
  · have : t + 23 = E := by omega
    rw [this]
    exact x1

/-- The unit roundoff of binary32. -/
theorem round32_spec (neg : Bool) (a d : Nat) (ha : 0 < a) (hd : 0 < d) (s : Int)
    (hlo : (2 : ℚ) ^ (-126 : Int) ≤ (a : ℚ) / d * (2 : ℚ) ^ s)
    (hhi : (a : ℚ) / d * (2 : ℚ) ^ s < (2 : ℚ) ^ (127 : Int)) :
    ∃ m e, roundQ 24 (-126) 127 neg a d s = .fin neg m e ∧ m ≠ 0 ∧
      |(m : ℚ) * (2 : ℚ) ^ e - (a : ℚ) / d * (2 : ℚ) ^ s|
        ≤ (a : ℚ) / d * (2 : ℚ) ^ s * (2 : ℚ) ^ (-24 : Int) := by
  have two : (2 : ℚ) ≠ 0 := by norm_num
  obtain ⟨t, mant, hr, hmne, hm, x1⟩ := round32_core neg a d ha hd s hlo hhi
  set x : ℚ := (a : ℚ) / d * (2 : ℚ) ^ s with hx
  obtain ⟨m', e', hl, hv, hne⟩ := lowest_spec neg mant t
  refine ⟨m', e', hr.trans hl, hne hmne, ?_⟩
  rw [hv]
  have tpos := two_zpow_pos t
  have hxt : x = x * (2 : ℚ) ^ (-t) * (2 : ℚ) ^ t := by
    rw [mul_assoc, ← zpow_add₀ two]; simp
  have hd1 : (mant : ℚ) * (2 : ℚ) ^ t - x = ((mant : ℚ) - x * (2 : ℚ) ^ (-t)) * (2 : ℚ) ^ t := by
    rw [sub_mul, ← hxt]
  rw [hd1, abs_mul, abs_of_pos tpos]
  have h24 : (2 : ℚ) ^ t * (1 / 2) ≤ x * (2 : ℚ) ^ (-24 : Int) := by
    have : (2 : ℚ) ^ t * (1 / 2) = (2 : ℚ) ^ (t + 23) * (2 : ℚ) ^ (-24 : Int) := by
      rw [← zpow_add₀ two]
      have : t = (t + 23 + -24) + 1 := by omega
      nth_rewrite 1 [this]
      rw [zpow_add_one₀ two]
      ring
    rw [this]
    exact mul_le_mul_of_nonneg_right x1 (two_zpow_pos _).le
  calc |(mant : ℚ) - x * (2 : ℚ) ^ (-t)| * (2 : ℚ) ^ t ≤ 1 / 2 * (2 : ℚ) ^ t := by
        exact mul_le_mul_of_nonneg_right hm tpos.le
    _ = (2 : ℚ) ^ t * (1 / 2) := by ring
    _ ≤ x * (2 : ℚ) ^ (-24 : Int) := h24

/-- Rounding an integer value to binary32 gives an integer value: the result is exact
below the unit in the last place `1`, and a multiple of a power of two above. -/
theorem round32_int (neg : Bool) (a : Nat) (s : Int) (N : Nat) (ha : 0 < a)
    (hN : (a : ℚ) * (2 : ℚ) ^ s = N) (hhi : (N : ℚ) < (2 : ℚ) ^ (127 : Int)) :
    ∃ (m : Nat) (e : Int) (M : Nat), roundQ 24 (-126) 127 neg a 1 s = .fin neg m e ∧
      (m : ℚ) * (2 : ℚ) ^ e = M ∧ 1 ≤ M ∧ |(M : ℚ) - N| ≤ N * (2 : ℚ) ^ (-24 : Int) := by
  have two : (2 : ℚ) ≠ 0 := by norm_num
  have hx : (a : ℚ) / (1 : Nat) * (2 : ℚ) ^ s = N := by
    rw [Nat.cast_one, div_one, hN]
  have hNpos : (0 : ℚ) < N := by
    rw [← hN]
    have : (0 : ℚ) < a := by exact_mod_cast ha
    exact mul_pos this (two_zpow_pos s)
  have hN1 : (1 : ℚ) ≤ N := by
    have : 0 < N := by exact_mod_cast hNpos
    exact_mod_cast this
  have hlo : (2 : ℚ) ^ (-126 : Int) ≤ (a : ℚ) / (1 : Nat) * (2 : ℚ) ^ s := by
    rw [hx]
    refine le_trans ?_ hN1
    have : (2 : ℚ) ^ (-126 : Int) ≤ (2 : ℚ) ^ (0 : Int) :=
      zpow_le_zpow_right₀ (by norm_num) (by norm_num)
    simpa using this
  have hhi' : (a : ℚ) / (1 : Nat) * (2 : ℚ) ^ s < (2 : ℚ) ^ (127 : Int) := by rw [hx]; exact hhi
  obtain ⟨t, mant, hr, hmne, hm, -⟩ := round32_core neg a 1 ha (by decide) s hlo hhi'
  obtain ⟨m, e, hs, hmn, herr⟩ := round32_spec neg a 1 ha (by decide) s hlo hhi'
  obtain ⟨m', e', hl, hv, -⟩ := lowest_spec neg mant t
  have hme : m = m' ∧ e = e' := by
    have := hs.symm.trans (hr.trans hl)
    simp only [Fl.fin.injEq, true_and] at this
    exact this
  rw [hx] at hm herr
  have hval : (m : ℚ) * (2 : ℚ) ^ e = (mant : ℚ) * (2 : ℚ) ^ t := by
    rw [hme.1, hme.2, hv]
  have hint : ∃ M : Nat, (mant : ℚ) * (2 : ℚ) ^ t = M := by
    by_cases ht : 0 ≤ t
    · refine ⟨mant * 2 ^ t.toNat, ?_⟩
      rw [Nat.cast_mul, two_zpow_toNat t ht]
    · have ht' : 0 ≤ -t := by omega
      refine ⟨N, ?_⟩
      have hK : (N : ℚ) * (2 : ℚ) ^ (-t) = ((N * 2 ^ (-t).toNat : Nat) : ℚ) := by
        rw [Nat.cast_mul, two_zpow_toNat (-t) ht']
      rw [hK, abs_le] at hm
      have h1 : (mant : ℚ) < ((N * 2 ^ (-t).toNat : Nat) : ℚ) + 1 := by linarith [hm.2]
      have h2 : ((N * 2 ^ (-t).toNat : Nat) : ℚ) < (mant : ℚ) + 1 := by linarith [hm.1]
      have h1' : mant < N * 2 ^ (-t).toNat + 1 := by exact_mod_cast h1
      have h2' : N * 2 ^ (-t).toNat < mant + 1 := by exact_mod_cast h2
      have : mant = N * 2 ^ (-t).toNat := by omega
      rw [this, ← hK, mul_assoc, ← zpow_add₀ two]
      simp
  obtain ⟨M, hM⟩ := hint
  refine ⟨m, e, M, hs, hval.trans hM, ?_, ?_⟩
  · have : (0 : ℚ) < M := by
      rw [← hM, ← hval]
      have : (0 : ℚ) < m := by exact_mod_cast Nat.pos_of_ne_zero hmn
      exact mul_pos this (two_zpow_pos e)
    exact_mod_cast this
  · rw [← hM, ← hval]
    exact herr

theorem Fl.Nonneg.toRat_eq {s : Bool} {m : Nat} {e : Int} (h : s = true → m = 0) :
    Fl.toRat (.fin s m e) = (m : ℚ) * (2 : ℚ) ^ e := by
  unfold Fl.toRat
  cases s with
  | false => simp
  | true => simp [h rfl]

theorem Fl.Nonneg.toRat_nonneg {x : Fl} (h : x.Nonneg) : 0 ≤ x.toRat := by
  obtain ⟨s, m, e, rfl, hs⟩ := h
  rw [Fl.Nonneg.toRat_eq hs]
  exact mul_nonneg (Nat.cast_nonneg _) (two_zpow_pos e).le

/-- Rounding a positive value of the normal range: the result is finite, positive and
within a relative error of `2^-24`. -/
theorem round32_value (a d : Nat) (ha : 0 < a) (hd : 0 < d) (s : Int) (v : ℚ)
    (hv : v = (a : ℚ) / d * (2 : ℚ) ^ s)
    (hlo : (2 : ℚ) ^ (-126 : Int) ≤ v) (hhi : v < (2 : ℚ) ^ (127 : Int)) :
    (roundQ 24 (-126) 127 false a d s).Nonneg ∧
      |(roundQ 24 (-126) 127 false a d s).toRat - v| ≤ v * (2 : ℚ) ^ (-24 : Int) := by
  subst hv
  obtain ⟨m, e, h1, -, h3⟩ := round32_spec false a d ha hd s hlo hhi
  rw [h1]
  refine ⟨⟨false, m, e, rfl, fun h => by cases h⟩, ?_⟩
  rw [Fl.Nonneg.toRat_eq (fun h => by cases h)]
  exact h3

theorem F32.add_spec (x y : F32) (hx : x.Nonneg) (hy : y.Nonneg)
    (h : x.toRat + y.toRat = 0 ∨
      ((2 : ℚ) ^ (-126 : Int) ≤ x.toRat + y.toRat ∧ x.toRat + y.toRat < (2 : ℚ) ^ (127 : Int))) :
    (F32.add x y).Nonneg ∧
      |(F32.add x y).toRat - (x.toRat + y.toRat)| ≤ (x.toRat + y.toRat) * (2 : ℚ) ^ (-24 : Int) := by
  have two : (2 : ℚ) ≠ 0 := by norm_num
  obtain ⟨s1, m1, e1, rfl, h1⟩ := hx
  obtain ⟨s2, m2, e2, rfl, h2⟩ := hy
  rw [Fl.Nonneg.toRat_eq h1, Fl.Nonneg.toRat_eq h2] at h ⊢
  have hx1 : ((if s1 then -1 else 1) * ((m1 * 2 ^ (e1 - min e1 e2).toNat : Nat) : Int) : Int)
      = ((m1 * 2 ^ (e1 - min e1 e2).toNat : Nat) : Int) := by
    cases s1 with
    | false => simp
    | true => simp [h1 rfl]
  have hx2 : ((if s2 then -1 else 1) * ((m2 * 2 ^ (e2 - min e1 e2).toNat : Nat) : Int) : Int)
      = ((m2 * 2 ^ (e2 - min e1 e2).toNat : Nat) : Int) := by
    cases s2 with
    | false => simp
    | true => simp [h2 rfl]
  set e := min e1 e2 with he
  set n : Nat := m1 * 2 ^ (e1 - e).toNat + m2 * 2 ^ (e2 - e).toNat with hn
  have hval : (n : ℚ) / (1 : Nat) * (2 : ℚ) ^ e = (m1 : ℚ) * (2 : ℚ) ^ e1 + (m2 : ℚ) * (2 : ℚ) ^ e2 := by
    rw [hn]
    push_cast
    have q1 := two_zpow_toNat (e1 - e) (by omega)
    have q2 := two_zpow_toNat (e2 - e) (by omega)
    push_cast at q1 q2
    rw [q1, q2, div_one, add_mul, mul_assoc, mul_assoc, ← zpow_add₀ two, ← zpow_add₀ two]
    simp
  have hadd : F32.add (.fin s1 m1 e1) (.fin s2 m2 e2)
      = if n = 0 then .fin (s1 && s2) 0 0 else roundQ 24 (-126) 127 false n 1 e := by
    unfold F32.add Fl.add
    simp only [← he, hx1, hx2]
    have hsum : ((m1 * 2 ^ (e1 - e).toNat : Nat) : Int) + ((m2 * 2 ^ (e2 - e).toNat : Nat) : Int)
        = (n : Int) := by rw [hn]; push_cast; ring
    rw [hsum]
    by_cases h0 : n = 0
    · simp [h0]
    · have : ¬ ((n : Int) = 0) := by omega
      have hneg : decide ((n : Int) < 0) = false := by
        rw [decide_eq_false_iff_not]; omega
      rw [if_neg this, if_neg h0, hneg, Int.natAbs_ofNat]
  rw [hadd]
  by_cases h0 : n = 0
  · rw [if_pos h0]
    have hz : (m1 : ℚ) * (2 : ℚ) ^ e1 + (m2 : ℚ) * (2 : ℚ) ^ e2 = 0 := by
      rw [← hval, h0]; simp
    refine ⟨⟨_, 0, 0, rfl, fun _ => rfl⟩, ?_⟩
    rw [hz]
    simp [Fl.toRat]
  · rw [if_neg h0]
    rcases h with h | h
    · exfalso
      rw [← hval] at h
      have hn0 : (0 : ℚ) < n := by exact_mod_cast Nat.pos_of_ne_zero h0
      have := two_zpow_pos e
      have : (0 : ℚ) < (n : ℚ) / (1 : Nat) * (2 : ℚ) ^ e := by positivity
      linarith
    · exact round32_value n 1 (Nat.pos_of_ne_zero h0) (by decide) e _ hval.symm h.1 h.2

theorem F32.div_spec (x y : F32) (hx : x.Nonneg) (hy : y.Nonneg) (hpos : 0 < y.toRat)
    (h : x.toRat = 0 ∨
      ((2 : ℚ) ^ (-126 : Int) ≤ x.toRat / y.toRat ∧ x.toRat / y.toRat < (2 : ℚ) ^ (127 : Int))) :
    (F32.div x y).Nonneg ∧
      |(F32.div x y).toRat - x.toRat / y.toRat| ≤ x.toRat / y.toRat * (2 : ℚ) ^ (-24 : Int) := by
  have two : (2 : ℚ) ≠ 0 := by norm_num
  obtain ⟨s1, m1, e1, rfl, h1⟩ := hx
  obtain ⟨s2, m2, e2, rfl, h2⟩ := hy
  rw [Fl.Nonneg.toRat_eq h1, Fl.Nonneg.toRat_eq h2] at h ⊢
  rw [Fl.Nonneg.toRat_eq h2] at hpos
  have hm2 : m2 ≠ 0 := by
    intro e
    rw [e] at hpos
    simp at hpos
  have hs2 : s2 = false := by
    cases s2 with
    | false => rfl
    | true => exact absurd (h2 rfl) hm2
  have hval : (m1 : ℚ) / m2 * (2 : ℚ) ^ (e1 - e2)
      = (m1 : ℚ) * (2 : ℚ) ^ e1 / ((m2 : ℚ) * (2 : ℚ) ^ e2) := by
    rw [zpow_sub₀ two]
    have := two_zpow_pos e2
    have hm2q : (m2 : ℚ) ≠ 0 := by exact_mod_cast hm2
    field_simp
  have hdiv : F32.div (.fin s1 m1 e1) (.fin s2 m2 e2)
      = roundQ 24 (-126) 127 (xor s1 s2) m1 m2 (e1 - e2) := by
    unfold F32.div Fl.div
    simp only [if_neg hm2]
  rw [hdiv]
  by_cases h0 : m1 = 0
  · subst h0
    have hr : roundQ 24 (-126) 127 (xor s1 s2) 0 m2 (e1 - e2) = .fin (xor s1 s2) 0 0 := by
      unfold roundQ; simp
    rw [hr]
    refine ⟨⟨_, 0, 0, rfl, fun _ => rfl⟩, ?_⟩
    simp [Fl.toRat]
  · have hs1 : s1 = false := by
      cases s1 with
      | false => rfl
      | true => exact absurd (h1 rfl) h0
    subst hs1 hs2
    rcases h with h | h
    · exfalso
      have hm1q : (0 : ℚ) < m1 := by exact_mod_cast Nat.pos_of_ne_zero h0
      have := two_zpow_pos e1
      have : (0 : ℚ) < (m1 : ℚ) * (2 : ℚ) ^ e1 := by positivity
      linarith
    · exact round32_value m1 m2 (Nat.pos_of_ne_zero h0) (Nat.pos_of_ne_zero hm2) (e1 - e2) _
        hval.symm h.1 h.2

theorem F32.mul_spec (x y : F32) (hx : x.Nonneg) (hy : y.Nonneg)
    (h : x.toRat * y.toRat = 0 ∨
      ((2 : ℚ) ^ (-126 : Int) ≤ x.toRat * y.toRat ∧ x.toRat * y.toRat < (2 : ℚ) ^ (127 : Int))) :
    (F32.mul x y).Nonneg ∧
      |(F32.mul x y).toRat - x.toRat * y.toRat| ≤ x.toRat * y.toRat * (2 : ℚ) ^ (-24 : Int) := by
  have two : (2 : ℚ) ≠ 0 := by norm_num
  obtain ⟨s1, m1, e1, rfl, h1⟩ := hx
  obtain ⟨s2, m2, e2, rfl, h2⟩ := hy
  rw [Fl.Nonneg.toRat_eq h1, Fl.Nonneg.toRat_eq h2] at h ⊢
  have hval : ((m1 * m2 : Nat) : ℚ) / (1 : Nat) * (2 : ℚ) ^ (e1 + e2)
      = (m1 : ℚ) * (2 : ℚ) ^ e1 * ((m2 : ℚ) * (2 : ℚ) ^ e2) := by
    rw [zpow_add₀ two]
    push_cast
    ring
  have hmul : F32.mul (.fin s1 m1 e1) (.fin s2 m2 e2)
      = roundQ 24 (-126) 127 (xor s1 s2) (m1 * m2) 1 (e1 + e2) := by
    unfold F32.mul Fl.mul
    rfl
  rw [hmul]
  by_cases h0 : m1 * m2 = 0
  · have hr : roundQ 24 (-126) 127 (xor s1 s2) (m1 * m2) 1 (e1 + e2) = .fin (xor s1 s2) 0 0 := by
      unfold roundQ; simp [h0]
    rw [hr]
    have hz : (m1 : ℚ) * (2 : ℚ) ^ e1 * ((m2 : ℚ) * (2 : ℚ) ^ e2) = 0 := by
      rw [← hval, h0]; simp
    refine ⟨⟨_, 0, 0, rfl, fun _ => rfl⟩, ?_⟩
    rw [hz]
    simp [Fl.toRat]
  · have hm1 : m1 ≠ 0 := fun e => h0 (by rw [e, Nat.zero_mul])
    have hm2 : m2 ≠ 0 := fun e => h0 (by rw [e, Nat.mul_zero])
    have hs1 : s1 = false := by
      cases s1 with
      | false => rfl
      | true => exact absurd (h1 rfl) hm1
    have hs2 : s2 = false := by
      cases s2 with
      | false => rfl
      | true => exact absurd (h2 rfl) hm2
    subst hs1 hs2
    rcases h with h | h
    · exfalso
      rw [← hval] at h
      have hq : (0 : ℚ) < ((m1 * m2 : Nat) : ℚ) := by exact_mod_cast Nat.pos_of_ne_zero h0
      have := two_zpow_pos (e1 + e2)
      have : (0 : ℚ) < ((m1 * m2 : Nat) : ℚ) / (1 : Nat) * (2 : ℚ) ^ (e1 + e2) := by positivity
      linarith
    · exact round32_value (m1 * m2) 1 (Nat.pos_of_ne_zero h0) (by decide) (e1 + e2) _
        hval.symm h.1 h.2

theorem two_zpow_neg24 : (2 : ℚ) ^ (-24 : Int) = 1 / 16777216 := by
  rw [zpow_neg, show ((24 : Int)) = ((24 : Nat) : Int) by rfl, zpow_natCast]
  norm_num

theorem near_bounds {v t : ℚ} (h : |v - t| ≤ t * (2 : ℚ) ^ (-24 : Int)) :
    (1 - 1 / 16777216) * t ≤ v ∧ v ≤ (1 + 1 / 16777216) * t := by
  rw [two_zpow_neg24, abs_le] at h
  constructor <;> linarith [h.1, h.2]

theorem near_range {v t lo hi : ℚ} (h : |v - t| ≤ t * (2 : ℚ) ^ (-24 : Int))
    (ht : t = 0 ∨ (lo ≤ t ∧ t ≤ hi)) : v = 0 ∨ (lo / 2 ≤ v ∧ v ≤ 2 * hi) := by
  obtain ⟨h1, h2⟩ := near_bounds h
  rcases ht with ht | ht
  · left
    rw [ht] at h1 h2
    linarith
  · right
    constructor <;> linarith [ht.1, ht.2]

theorem normal_of_range {t lo hi : ℚ} (ht : t = 0 ∨ (lo ≤ t ∧ t ≤ hi))
    (h1 : 1 / 2 ^ 100 ≤ lo) (h2 : hi ≤ 2 ^ 100) :
    t = 0 ∨ ((2 : ℚ) ^ (-126 : Int) ≤ t ∧ t < (2 : ℚ) ^ (127 : Int)) := by
  have l1 : (2 : ℚ) ^ (-126 : Int) ≤ 1 / 2 ^ 100 := by
    rw [one_div, ← zpow_natCast, ← zpow_neg]
    exact zpow_le_zpow_right₀ (by norm_num) (by norm_num)
  have l2 : (2 : ℚ) ^ 100 < (2 : ℚ) ^ (127 : Int) := by
    rw [← zpow_natCast]
    exact zpow_lt_zpow_right₀ (by norm_num) (by norm_num)
  rcases ht with ht | ht
  · exact Or.inl ht
  · exact Or.inr ⟨le_trans l1 (le_trans h1 ht.1), lt_of_le_of_lt (le_trans ht.2 h2) l2⟩

theorem range_add {a b la ha lb hb : ℚ} (a0 : a = 0 ∨ (la ≤ a ∧ a ≤ ha))
    (b0 : b = 0 ∨ (lb ≤ b ∧ b ≤ hb)) (hlb : 0 < lb) (hha : 0 ≤ ha) (hhb : 0 ≤ hb) :
    a + b = 0 ∨ (min la lb ≤ a + b ∧ a + b ≤ ha + hb) := by
  have m1 := min_le_left la lb
  have m2 := min_le_right la lb
  rcases a0 with a0 | a0 <;> rcases b0 with b0 | b0
  · left; rw [a0, b0]; norm_num
  · right; rw [a0]; constructor <;> linarith [b0.1, b0.2]
  · right; rw [b0]; constructor <;> linarith [a0.1, a0.2]
  · right; constructor <;> linarith [a0.1, a0.2, b0.1, b0.2]

/-- One percentage of `procCpuStat`: the quotient by the sum, times 100, with two
roundings. -/
theorem percent_spec (x sum : F32) (hx : CounterDelta x) (hs : sum.Nonneg)
    (hs1 : 1 / 8 ≤ sum.toRat) (hs2 : sum.toRat ≤ 22 * 2 ^ 65) :
    (F32.mul (F32.div x sum) (F32.ofInt 100)).Nonneg ∧
      (1 - 1 / 16777216) * ((1 - 1 / 16777216) * (x.toRat / sum.toRat)) * 100
        ≤ (F32.mul (F32.div x sum) (F32.ofInt 100)).toRat ∧
      (F32.mul (F32.div x sum) (F32.ofInt 100)).toRat
        ≤ (1 + 1 / 16777216) * ((1 + 1 / 16777216) * (x.toRat / sum.toRat)) * 100 := by
  obtain ⟨hxn, hxr⟩ := hx
  have hspos : 0 < sum.toRat := by linarith
  -- the quotient
  have hq : x.toRat / sum.toRat = 0 ∨
      (1 / (22 * 2 ^ 65) ≤ x.toRat / sum.toRat ∧ x.toRat / sum.toRat ≤ 8 * 2 ^ 65) := by
    rcases hxr with h | h
    · left; rw [h]; simp
    · right
      constructor
      · rw [div_le_div_iff₀ (by positivity) hspos]
        nlinarith [h.1]
      · rw [div_le_iff₀ hspos]
        nlinarith [h.2]
  have hqn : x.toRat = 0 ∨ ((2 : ℚ) ^ (-126 : Int) ≤ x.toRat / sum.toRat ∧
      x.toRat / sum.toRat < (2 : ℚ) ^ (127 : Int)) := by
    rcases hxr with h | h
    · exact Or.inl h
    · rcases normal_of_range hq (by norm_num) (by norm_num) with h' | h'
      · rw [div_eq_zero_iff] at h'
        rcases h' with h' | h'
        · exact Or.inl h'
        · linarith
      · exact Or.inr h'
  obtain ⟨d1, d2⟩ := F32.div_spec x sum hxn hs hspos hqn
  obtain ⟨d3, d4⟩ := near_bounds d2
  have hqr := near_range d2 hq
  -- the product
  have h100 : F32.ofInt 100 = .fin false 25 2 := by decide
  have h100n : (F32.ofInt 100).Nonneg := by
    rw [h100]; exact ⟨false, 25, 2, rfl, fun h => by cases h⟩
  have h100v : (F32.ofInt 100).toRat = 100 := by
    rw [h100]; norm_num [Fl.toRat]
  have hp : (F32.div x sum).toRat * (F32.ofInt 100).toRat = 0 ∨
      (1 / (22 * 2 ^ 65) / 2 * 100 ≤ (F32.div x sum).toRat * (F32.ofInt 100).toRat ∧
        (F32.div x sum).toRat * (F32.ofInt 100).toRat ≤ 2 * (8 * 2 ^ 65) * 100) := by
    rw [h100v]
    rcases hqr with h | h
    · left; rw [h]; simp
    · right; constructor <;> nlinarith [h.1, h.2]
  obtain ⟨p1, p2⟩ := F32.mul_spec _ _ d1 h100n (normal_of_range hp (by norm_num) (by norm_num))
  obtain ⟨p3, p4⟩ := near_bounds p2
  rw [h100v] at p3 p4
  refine ⟨p1, ?_, ?_⟩
  · nlinarith
  · nlinarith

/-- The sum computed by `procCpuStat` on a usable delta: three rounded additions. -/
theorem sum_spec (c : CpuStat) (h : c.UsableDelta) :
    (F32.add (F32.add (F32.add c.user c.nice) c.system) c.idle).Nonneg ∧
      (1 - 1 / 16777216) * ((1 - 1 / 16777216) * ((1 - 1 / 16777216) *
          (c.user.toRat + c.nice.toRat + c.system.toRat + c.idle.toRat)))
        ≤ (F32.add (F32.add (F32.add c.user c.nice) c.system) c.idle).toRat ∧
      (F32.add (F32.add (F32.add c.user c.nice) c.system) c.idle).toRat
        ≤ (1 + 1 / 16777216) * ((1 + 1 / 16777216) * ((1 + 1 / 16777216) *
          (c.user.toRat + c.nice.toRat + c.system.toRat + c.idle.toRat))) ∧
      1 / 8 ≤ (F32.add (F32.add (F32.add c.user c.nice) c.system) c.idle).toRat ∧
      (F32.add (F32.add (F32.add c.user c.nice) c.system) c.idle).toRat ≤ 22 * 2 ^ 65 := by
  obtain ⟨⟨un, ur⟩, ⟨nn, nr⟩, ⟨sn, sr⟩, ⟨inn, ir⟩, hpos⟩ := h
  have u0 := Fl.Nonneg.toRat_nonneg un
  have n0 := Fl.Nonneg.toRat_nonneg nn
  have s0 := Fl.Nonneg.toRat_nonneg sn
  have i0 := Fl.Nonneg.toRat_nonneg inn
  -- first addition
  have t1 := range_add ur nr (by norm_num) (by norm_num) (by norm_num)
  obtain ⟨a1, a2⟩ := F32.add_spec _ _ un nn (normal_of_range t1 (by norm_num) (by norm_num))
  obtain ⟨a3, a4⟩ := near_bounds a2
  have r1 := near_range a2 t1
  -- second addition
  have t2 := range_add r1 sr (by norm_num) (by norm_num) (by norm_num)
  obtain ⟨b1, b2⟩ := F32.add_spec _ _ a1 sn (normal_of_range t2 (by norm_num) (by norm_num))
  obtain ⟨b3, b4⟩ := near_bounds b2
  have r2 := near_range b2 t2
  -- third addition
  have t3 := range_add r2 ir (by norm_num) (by norm_num) (by norm_num)
  obtain ⟨c1, c2⟩ := F32.add_spec _ _ b1 inn (normal_of_range t3 (by norm_num) (by norm_num))
  obtain ⟨c3, c4⟩ := near_bounds c2
  have r3 := near_range c2 t3
  have lower : (1 - 1 / 16777216) * ((1 - 1 / 16777216) * ((1 - 1 / 16777216) *
      (c.user.toRat + c.nice.toRat + c.system.toRat + c.idle.toRat)))
      ≤ (F32.add (F32.add (F32.add c.user c.nice) c.system) c.idle).toRat := by
    linarith
  have upper : (F32.add (F32.add (F32.add c.user c.nice) c.system) c.idle).toRat
      ≤ (1 + 1 / 16777216) * ((1 + 1 / 16777216) * ((1 + 1 / 16777216) *
        (c.user.toRat + c.nice.toRat + c.system.toRat + c.idle.toRat))) := by
    linarith
  refine ⟨c1, lower, upper, ?_, ?_⟩
  · rcases r3 with r | r
    · rw [r] at lower
      linarith
    · have := r.1
      norm_num at this
      linarith
  · rcases r3 with r | r
    · rw [r]; norm_num
    · have := r.2
      norm_num at this
      linarith

/-- The percentages of a usable delta are finite and non-negative and sum to 100 within
`1/10000`. -/
theorem procCpuStat_sum (c : CpuStat) (h : c.UsableDelta) :
    (procCpuStat c).user.Nonneg ∧ (procCpuStat c).nice.Nonneg ∧
      (procCpuStat c).system.Nonneg ∧ (procCpuStat c).idle.Nonneg ∧
      |(procCpuStat c).user.toRat + (procCpuStat c).nice.toRat + (procCpuStat c).system.toRat
          + (procCpuStat c).idle.toRat - 100| ≤ 1 / 10000 := by
  obtain ⟨sn, slo, shi, s1, s2⟩ := sum_spec c h
  obtain ⟨hu, hn, hs, hi, hpos⟩ := h
  obtain ⟨pu, pu1, pu2⟩ := percent_spec c.user _ hu sn s1 s2
  obtain ⟨pn, pn1, pn2⟩ := percent_spec c.nice _ hn sn s1 s2
  obtain ⟨ps, ps1, ps2⟩ := percent_spec c.system _ hs sn s1 s2
  obtain ⟨pi, pi1, pi2⟩ := percent_spec c.idle _ hi sn s1 s2
  unfold procCpuStat
  simp only
  set sum := F32.add (F32.add (F32.add c.user c.nice) c.system) c.idle with hsum
  set A := c.user.toRat + c.nice.toRat + c.system.toRat + c.idle.toRat with hA
  have hspos : 0 < sum.toRat := by linarith
  have hrho : c.user.toRat / sum.toRat + c.nice.toRat / sum.toRat + c.system.toRat / sum.toRat
      + c.idle.toRat / sum.toRat = A / sum.toRat := by
    rw [hA]; field_simp
  set ρ := A / sum.toRat with hρ
  have hρ1 : ρ ≤ 1 / ((1 - 1 / 16777216) * ((1 - 1 / 16777216) * (1 - 1 / 16777216))) := by
    rw [hρ, div_le_div_iff₀ hspos (by norm_num)]
    nlinarith
  have hρ2 : 1 / ((1 + 1 / 16777216) * ((1 + 1 / 16777216) * (1 + 1 / 16777216))) ≤ ρ := by
    rw [hρ, div_le_div_iff₀ (by norm_num) hspos]
    nlinarith
  refine ⟨pu, pn, ps, pi, ?_⟩
  rw [abs_le]
  norm_num at hρ1 hρ2
  constructor
  · linarith
  · linarith

theorem F32.ofInt_isInt (k : Int) (hk : InInt64 k) :
    (F32.ofInt k).IsIntUpTo (2 ^ 63 * (1 + 1 / 16777216)) := by
  unfold InInt64 at hk
  unfold F32.ofInt Fl.ofInt
  by_cases h0 : k.natAbs = 0
  · have hr : roundQ 24 (-126) 127 (decide (k < 0)) k.natAbs 1 0 = .fin (decide (k < 0)) 0 0 := by
      unfold roundQ
      rw [if_pos h0]
    exact ⟨decide (k < 0), 0, 0, 0, hr, by simp, by norm_num⟩
  · have hN : ((k.natAbs : Nat) : ℚ) * (2 : ℚ) ^ (0 : Int) = (k.natAbs : Nat) := by simp
    have hb : k.natAbs ≤ 2 ^ 63 := by omega
    have hbq : ((k.natAbs : Nat) : ℚ) ≤ 2 ^ 63 := by exact_mod_cast hb
    have hhi : ((k.natAbs : Nat) : ℚ) < (2 : ℚ) ^ (127 : Int) := by
      have : (2 : ℚ) ^ 63 < (2 : ℚ) ^ (127 : Int) := by
        rw [← zpow_natCast]
        exact zpow_lt_zpow_right₀ (by norm_num) (by norm_num)
      exact lt_of_le_of_lt hbq this
    obtain ⟨m, e, M, h1, h2, -, h4⟩ :=
      round32_int (decide (k < 0)) k.natAbs 0 k.natAbs (Nat.pos_of_ne_zero h0) hN hhi
    refine ⟨_, m, e, M, h1, h2, ?_⟩
    obtain ⟨-, h5⟩ := near_bounds h4
    nlinarith

theorem F32.sub_isInt (x y : F32) (hx : x.IsIntUpTo (2 ^ 63 * (1 + 1 / 16777216)))
    (hy : y.IsIntUpTo (2 ^ 63 * (1 + 1 / 16777216))) (hge : (F32.sub x y).geZero = true) :
    CounterDelta (F32.sub x y) := by
  have two : (2 : ℚ) ≠ 0 := by norm_num
  obtain ⟨s1, m1, e1, M1, rfl, hM1, hB1⟩ := hx
  obtain ⟨s2, m2, e2, M2, rfl, hM2, hB2⟩ := hy
  set e := min e1 e2 with he
  set X : Int := (if s1 then -1 else 1) * ((m1 * 2 ^ (e1 - e).toNat : Nat) : Int)
    + (if (!s2) then -1 else 1) * ((m2 * 2 ^ (e2 - e).toNat : Nat) : Int) with hX
  have hsub : F32.sub (.fin s1 m1 e1) (.fin s2 m2 e2)
      = if X = 0 then .fin (s1 && !s2) 0 0
        else roundQ 24 (-126) 127 (decide (X < 0)) X.natAbs 1 e := by
    unfold F32.sub Fl.sub Fl.neg Fl.add
    rfl
  rw [hsub] at hge ⊢
  by_cases h0 : X = 0
  · rw [if_pos h0]
    exact ⟨⟨_, 0, 0, rfl, fun _ => rfl⟩, Or.inl (by simp [Fl.toRat])⟩
  · rw [if_neg h0] at hge ⊢
    -- the exact difference is an integer
    set D : Int := (if s1 then -1 else 1) * (M1 : Int) + (if (!s2) then -1 else 1) * (M2 : Int)
      with hD
    have q1 := two_zpow_toNat (e1 - e) (by omega)
    have q2 := two_zpow_toNat (e2 - e) (by omega)
    push_cast at q1 q2
    have hXD : (X : ℚ) * (2 : ℚ) ^ e = (D : ℚ) := by
      have a1 : (m1 : ℚ) * (2 : ℚ) ^ (e1 - e) * (2 : ℚ) ^ e = M1 := by
        rw [mul_assoc, ← zpow_add₀ two, ← hM1]; simp
      have a2 : (m2 : ℚ) * (2 : ℚ) ^ (e2 - e) * (2 : ℚ) ^ e = M2 := by
        rw [mul_assoc, ← zpow_add₀ two, ← hM2]; simp
      rw [hX, hD]
      push_cast
      rw [q1, q2]
      cases s1 <;> cases s2 <;> simp <;> linarith
    have hN : ((X.natAbs : Nat) : ℚ) * (2 : ℚ) ^ e = (D.natAbs : Nat) := by
      rw [Nat.cast_natAbs, Nat.cast_natAbs, Int.cast_abs, Int.cast_abs, ← hXD, abs_mul,
        abs_of_pos (two_zpow_pos e)]
    have hDb : ((D.natAbs : Nat) : ℚ) ≤ 2 * (2 ^ 63 * (1 + 1 / 16777216)) := by
      have hle : D.natAbs ≤ M1 + M2 := by
        rw [hD]
        cases s1 <;> cases s2 <;> simp <;> omega
      have : ((D.natAbs : Nat) : ℚ) ≤ (M1 : ℚ) + M2 := by exact_mod_cast hle
      linarith
    have hhi : ((D.natAbs : Nat) : ℚ) < (2 : ℚ) ^ (127 : Int) := by
      have : (2 : ℚ) * (2 ^ 63 * (1 + 1 / 16777216)) < (2 : ℚ) ^ (127 : Int) := by
        have h2 : (2 : ℚ) ^ 66 < (2 : ℚ) ^ (127 : Int) := by
          rw [← zpow_natCast]
          exact zpow_lt_zpow_right₀ (by norm_num) (by norm_num)
        refine lt_trans ?_ h2
        norm_num
      exact lt_of_le_of_lt hDb this
    obtain ⟨m, e', M, h1, h2, h3, h4⟩ := round32_int (decide (X < 0)) X.natAbs e D.natAbs
      (by omega) hN hhi
    rw [h1] at hge ⊢
    have hm : m ≠ 0 := by
      intro hm0
      rw [hm0] at h2
      have : (M : ℚ) = 0 := by rw [← h2]; simp
      have : M = 0 := by exact_mod_cast this
      omega
    have hs : decide (X < 0) = false := by
      have hm' : (m == 0) = false := by simpa using hm
      simp only [Fl.geZero, hm', Bool.or_false, Bool.not_eq_true'] at hge
      exact hge
    rw [hs]
    refine ⟨⟨false, m, e', rfl, fun h => by cases h⟩, Or.inr ?_⟩
    rw [Fl.Nonneg.toRat_eq (fun h => by cases h), h2]
    obtain ⟨-, h5⟩ := near_bounds h4
    constructor
    · exact_mod_cast h3
    · nlinarith


theorem CounterDelta.isZero_of_toRat {x : Fl} (h : CounterDelta x) (h0 : x.toRat = 0) :
    x.IsZero := by
  obtain ⟨⟨s, m, e, rfl, hs⟩, -⟩ := h
  rw [Fl.Nonneg.toRat_eq hs] at h0
  have hm : (m : ℚ) = 0 := by
    rcases mul_eq_zero.1 h0 with h | h
    · exact h
    · exact absurd h (two_zpow_pos e).ne'
  have : m = 0 := by exact_mod_cast hm
  subst this
  exact ⟨s, e, rfl⟩

theorem F32.add_zero_isZero {x y : Fl} (hx : x.IsZero) (hy : y.IsZero) :
    (F32.add x y).IsZero := by
  obtain ⟨s, e, rfl⟩ := hx
  obtain ⟨s', e', rfl⟩ := hy
  exact ⟨s && s', 0, by simp [F32.add, Fl.add]⟩

/-- A delta of integer counters whose components pass `>= 0` and whose `float32` sum
passes `> 0` is usable. -/
theorem usableDelta_of_go_tests (cur prev : CpuStat) (hc : cur.OfInt64) (hp : prev.OfInt64)
    (hu : (subCpuStat cur prev).user.geZero = true)
    (hn : (subCpuStat cur prev).nice.geZero = true)
    (hs : (subCpuStat cur prev).system.geZero = true)
    (hi : (subCpuStat cur prev).idle.geZero = true)
    (hsum : (F32.add (F32.add (F32.add (subCpuStat cur prev).user (subCpuStat cur prev).nice)
      (subCpuStat cur prev).system) (subCpuStat cur prev).idle).gtZero = true) :
    (subCpuStat cur prev).UsableDelta := by
  obtain ⟨u, n, s, i, u1, n1, s1, i1, rfl⟩ := hc
  obtain ⟨u', n', s', i', u2, n2, s2, i2, rfl⟩ := hp
  simp only [subCpuStat] at hu hn hs hi hsum
  have cu := F32.sub_isInt _ _ (F32.ofInt_isInt u u1) (F32.ofInt_isInt u' u2) hu
  have cn := F32.sub_isInt _ _ (F32.ofInt_isInt n n1) (F32.ofInt_isInt n' n2) hn
  have cs := F32.sub_isInt _ _ (F32.ofInt_isInt s s1) (F32.ofInt_isInt s' s2) hs
  have ci := F32.sub_isInt _ _ (F32.ofInt_isInt i i1) (F32.ofInt_isInt i' i2) hi
  refine ⟨cu, cn, cs, ci, ?_⟩
  have gu := Fl.Nonneg.toRat_nonneg cu.1
  have gn := Fl.Nonneg.toRat_nonneg cn.1
  have gs := Fl.Nonneg.toRat_nonneg cs.1
  have gi := Fl.Nonneg.toRat_nonneg ci.1
  simp only [subCpuStat]
  by_contra hneg
  have zu : (F32.sub (F32.ofInt u) (F32.ofInt u')).toRat = 0 := by linarith
  have zn : (F32.sub (F32.ofInt n) (F32.ofInt n')).toRat = 0 := by linarith
  have zs : (F32.sub (F32.ofInt s) (F32.ofInt s')).toRat = 0 := by linarith
  have zi : (F32.sub (F32.ofInt i) (F32.ofInt i')).toRat = 0 := by linarith
  obtain ⟨sg, e, hz⟩ := F32.add_zero_isZero (F32.add_zero_isZero (F32.add_zero_isZero
    (cu.isZero_of_toRat zu) (cn.isZero_of_toRat zn)) (cs.isZero_of_toRat zs))
    (ci.isZero_of_toRat zi)
  rw [hz] at hsum
  simp [Fl.gtZero] at hsum

/-! ## The CPU delta engine -/

theorem CpusStats.fold_tickKey_of_not_mem (ns : GoMap CpuStat) (l : List String)
    (cs : CpusStats) (key : String) (h : key ∉ l) :
    (l.foldl (CpusStats.tickKey ns) cs).proc.find key = cs.proc.find key ∧
      (l.foldl (CpusStats.tickKey ns) cs).stat.find key = cs.stat.find key := by
  induction l generalizing cs with
  | nil => exact ⟨rfl, rfl⟩
  | cons a l ih =>
    simp only [List.mem_cons, not_or] at h
    simp only [List.foldl_cons]
    obtain ⟨h1, h2⟩ := ih (CpusStats.tickKey ns cs a) h.2
    rw [h1, h2]
    exact ⟨GoMap.find_set_ne _ _ h.1, GoMap.find_set_ne _ _ h.1⟩

theorem CpusStats.fold_tickKey_of_mem (ns : GoMap CpuStat) (l : List String)
    (cs : CpusStats) (key : String) (hn : l.Nodup) (h : key ∈ l) :
    (l.foldl (CpusStats.tickKey ns) cs).proc.find key
        = some (procCpuStat (subCpuStat (ns.get CpuStat.zero key) (cs.stat.get CpuStat.zero key))) ∧
      (l.foldl (CpusStats.tickKey ns) cs).stat.find key = some (ns.get CpuStat.zero key) := by
  induction l generalizing cs with
  | nil => simp at h
  | cons a l ih =>
    rw [List.nodup_cons] at hn
    simp only [List.foldl_cons]
    by_cases ha : key = a
    · subst ha
      obtain ⟨h1, h2⟩ := CpusStats.fold_tickKey_of_not_mem ns l (CpusStats.tickKey ns cs key) key hn.1
      rw [h1, h2]
      exact ⟨GoMap.find_set_self _ _ _, GoMap.find_set_self _ _ _⟩
    · have hl : key ∈ l := by
        rcases List.mem_cons.1 h with e | e
        · exact absurd e ha
        · exact e
      obtain ⟨h1, h2⟩ := ih (CpusStats.tickKey ns cs a) hn.2 hl
      rw [h1, h2]
      have hs : (CpusStats.tickKey ns cs a).stat.get CpuStat.zero key = cs.stat.get CpuStat.zero key :=
        GoMap.get_set_ne _ _ _ ha
      rw [hs]
      exact ⟨rfl, rfl⟩

/-- What `tick` does to a label of the previous-counters map. -/
theorem CpusStats.tick_label (cs : CpusStats) (ns : GoMap CpuStat) (label : String)
    (prev : CpuStat) (h : cs.stat.find label = some prev) :
    (cs.tick ns).proc.find label
        = some (procCpuStat (subCpuStat (ns.get CpuStat.zero label) prev)) ∧
      (cs.tick ns).stat.find label = some (ns.get CpuStat.zero label) := by
  have hp : cs.stat.get CpuStat.zero label = prev := by simp [GoMap.get, h]
  have := CpusStats.fold_tickKey_of_mem ns cs.stat.keys cs label (GoMap.nodup_keys _)
    ((GoMap.mem_keys_iff _ _).2 ⟨prev, h⟩)
  rw [hp] at this
  exact this

/-- A label outside the previous-counters map is left alone. -/
theorem CpusStats.tick_other (cs : CpusStats) (ns : GoMap CpuStat) (label : String)
    (h : cs.stat.find label = none) :
    (cs.tick ns).proc.find label = cs.proc.find label ∧
      (cs.tick ns).stat.find label = none := by
  have hk : label ∉ cs.stat.keys := by
    rw [GoMap.mem_keys_iff]
    rintro ⟨v, hv⟩
    rw [h] at hv
    cases hv
  have := CpusStats.fold_tickKey_of_not_mem ns cs.stat.keys cs label hk
  rw [h] at this
  exact this


theorem Fl.div_isZero {x y : Fl} (hx : x.IsZero) (hy : y.IsZero) : F32.div x y = .nan := by
  obtain ⟨s, e, rfl⟩ := hx
  obtain ⟨s', e', rfl⟩ := hy
  simp [F32.div, Fl.div]

theorem Fl.nan_mul (y : Fl) : F32.mul .nan y = .nan := by
  cases y <;> rfl

theorem Fl.sub_self_isZero {x : Fl} (hx : x.isFinite = true) : (F32.sub x x).IsZero := by
  cases x with
  | fin s m e =>
    refine ⟨s && !s, 0, ?_⟩
    cases s <;> simp [F32.sub, Fl.sub, Fl.neg, Fl.add]
  | inf s => simp [Fl.isFinite] at hx
  | nan => simp [Fl.isFinite] at hx

/-- A delta that is zero in its four components has no percentages: all four are NaN. -/
theorem procCpuStat_zero_delta (c : CpuStat) (hu : c.user.IsZero) (hn : c.nice.IsZero)
    (hs : c.system.IsZero) (hi : c.idle.IsZero) :
    procCpuStat c = ⟨.nan, .nan, .nan, .nan⟩ := by
  have hsum := F32.add_zero_isZero (F32.add_zero_isZero (F32.add_zero_isZero hu hn) hs) hi
  unfold procCpuStat
  simp only [Fl.div_isZero hu hsum, Fl.div_isZero hn hsum, Fl.div_isZero hs hsum,
    Fl.div_isZero hi hsum, Fl.nan_mul]

/-- The percentages are rounded: after `{150, 0, 0, 150}` the counters `{151, 1, 1, 150}`
have the delta `{1, 1, 1, 0}`, each of the three percentages is the `float32` nearest to
`100/3 · (1 + 2^-24)`, and the four sum to `100 + 2^-17`. -/
theorem tick_thirds_rounded :
    (cpuHalf.tick countersThirds).proc.find "cpu"
        = some ⟨.fin false 4369067 (-17), .fin false 4369067 (-17), .fin false 4369067 (-17),
            .fin false 0 0⟩ ∧
      (Fl.fin false 4369067 (-17)).toRat + (Fl.fin false 4369067 (-17)).toRat
          + (Fl.fin false 4369067 (-17)).toRat + (Fl.fin false 0 0).toRat
        = 100 + 1 / 131072 := by
  refine ⟨by decide, ?_⟩
  have h17 : (2 : ℚ) ^ (-17 : Int) = 1 / 131072 := by
    rw [zpow_neg, show ((17 : Int)) = ((17 : Nat) : Int) by rfl, zpow_natCast]
    norm_num
  simp only [Fl.toRat, h17]
  norm_num

/-- C1: for every state, every new counter map `ns` and every label of the
previous-counters map, with `delta` the component-wise `float32` difference
`ns[label] - previous[label]` and `sum` the `float32` sum of its four components, after
`tick` the label's percentage for each field is `delta[field] / sum * 100` and the stored
counters of the label are `ns[label]`. When the four components of the delta are `>= 0`
and `sum > 0`, the counters being `float32` conversions of `int64` values as the CPU
reducer stores them, the four percentages are finite and non-negative and sum to 100 up
to the rounding of `float32`: within `1/10000`, well inside the tolerance `0.01` of the
specification. -/
theorem tick_percentages (cs : CpusStats) (ns : GoMap CpuStat) (label : String)
    (prev : CpuStat) (h : cs.stat.find label = some prev) :
    ∃ (p d : CpuStat) (sum : F32),
      d.user = F32.sub (ns.get CpuStat.zero label).user prev.user ∧
      d.nice = F32.sub (ns.get CpuStat.zero label).nice prev.nice ∧
      d.system = F32.sub (ns.get CpuStat.zero label).system prev.system ∧
      d.idle = F32.sub (ns.get CpuStat.zero label).idle prev.idle ∧
      sum = F32.add (F32.add (F32.add d.user d.nice) d.system) d.idle ∧
      (cs.tick ns).proc.find label = some p ∧
      p.user = F32.mul (F32.div d.user sum) (F32.ofInt 100) ∧
      p.nice = F32.mul (F32.div d.nice sum) (F32.ofInt 100) ∧
      p.system = F32.mul (F32.div d.system sum) (F32.ofInt 100) ∧
      p.idle = F32.mul (F32.div d.idle sum) (F32.ofInt 100) ∧
      (cs.tick ns).stat.find label = some (ns.get CpuStat.zero label) ∧
      (prev.OfInt64 → (ns.get CpuStat.zero label).OfInt64 →
        d.user.geZero = true → d.nice.geZero = true → d.system.geZero = true →
        d.idle.geZero = true → sum.gtZero = true →
        p.user.Nonneg ∧ p.nice.Nonneg ∧ p.system.Nonneg ∧ p.idle.Nonneg ∧
        |p.user.toRat + p.nice.toRat + p.system.toRat + p.idle.toRat - 100| ≤ 1 / 10000 ∧
        |p.user.toRat + p.nice.toRat + p.system.toRat + p.idle.toRat - 100| ≤ 1 / 100) := by
  obtain ⟨h1, h2⟩ := CpusStats.tick_label cs ns label prev h
  refine ⟨_, subCpuStat (ns.get CpuStat.zero label) prev, _, rfl, rfl, rfl, rfl, rfl, h1,
    rfl, rfl, rfl, rfl, h2, ?_⟩
  intro hp hc hu hn hs hi hsum
  obtain ⟨a1, a2, a3, a4, a5⟩ :=
    procCpuStat_sum _ (usableDelta_of_go_tests _ _ hc hp hu hn hs hi hsum)
  exact ⟨a1, a2, a3, a4, a5, le_trans a5 (by norm_num)⟩

/-- Witness of C1: previous `{user:100, nice:0, system:0, idle:100}` and new
`{user:150, nice:0, system:0, idle:150}` give exactly `{user:50, nice:0, system:0, idle:50}`;
the same previous counters and new `{user:150, nice:0, system:0, idle:250}` give exactly
`{user:25, nice:0, system:0, idle:75}`. -/
theorem tick_percentages_witness :
    (F32.ofInt 100 = .fin false 25 2 ∧ F32.ofInt 150 = .fin false 75 1 ∧
      F32.ofInt 250 = .fin false 125 1) ∧
    (((NewCpusStats counters100).tick counters150).proc.find "cpu"
        = some ⟨.fin false 25 1, .fin false 0 0, .fin false 0 0, .fin false 25 1⟩ ∧
      ((NewCpusStats counters100).tick counters150).stat.find "cpu"
        = some ⟨.fin false 75 1, .fin false 0 0, .fin false 0 0, .fin false 75 1⟩ ∧
      (Fl.fin false 25 1).toRat = 50 ∧ (Fl.fin false 0 0).toRat = 0) ∧
    (∃ p : CpuStat, ((NewCpusStats counters100).tick countersUp).proc.find "cpu" = some p ∧
      p = ⟨.fin false 25 0, .fin false 0 0, .fin false 0 0, .fin false 75 0⟩ ∧
      (Fl.fin false 25 0).toRat = 25 ∧ (Fl.fin false 75 0).toRat = 75 ∧
      |p.user.toRat + p.nice.toRat + p.system.toRat + p.idle.toRat - 100| ≤ 1 / 100) := by
  obtain ⟨p, d, sum, du, dn, ds, di, hsum, hp, hu, hn, hs, hi, hst, htol⟩ := tick_percentages
    (NewCpusStats counters100) counters150 "cpu"
    ⟨F32.ofInt 100, F32.ofInt 0, F32.ofInt 0, F32.ofInt 100⟩ (by decide)
  obtain ⟨p', d', sum', du', dn', ds', di', hsum', hp', hu', hn', hs', hi', -, htol'⟩ :=
    tick_percentages (NewCpusStats counters100) countersUp "cpu"
    ⟨F32.ofInt 100, F32.ofInt 0, F32.ofInt 0, F32.ofInt 100⟩ (by decide)
  have eu : d.user = .fin false 25 1 := du.trans (by decide)
  have en : d.nice = .fin false 0 0 := dn.trans (by decide)
  have es : d.system = .fin false 0 0 := ds.trans (by decide)
  have ei : d.idle = .fin false 25 1 := di.trans (by decide)
  rw [eu, en, es, ei] at hsum
  have esum : sum = .fin false 25 2 := hsum.trans (by decide)
  rw [eu, esum] at hu
  rw [en, esum] at hn
  rw [es, esum] at hs
  rw [ei, esum] at hi
  have e1 : p.user = .fin false 25 1 := hu.trans (by decide)
  have e2 : p.nice = .fin false 0 0 := hn.trans (by decide)
  have e3 : p.system = .fin false 0 0 := hs.trans (by decide)
  have e4 : p.idle = .fin false 25 1 := hi.trans (by decide)
  have eu' : d'.user = .fin false 25 1 := du'.trans (by decide)
  have en' : d'.nice = .fin false 0 0 := dn'.trans (by decide)
  have es' : d'.system = .fin false 0 0 := ds'.trans (by decide)
  have ei' : d'.idle = .fin false 75 1 := di'.trans (by decide)
  rw [eu', en', es', ei'] at hsum'
  have esum' : sum' = .fin false 25 3 := hsum'.trans (by decide)
  rw [eu', esum'] at hu'
  rw [en', esum'] at hn'
  rw [es', esum'] at hs'
  rw [ei', esum'] at hi'
  have e1' : p'.user = .fin false 25 0 := hu'.trans (by decide)
  have e2' : p'.nice = .fin false 0 0 := hn'.trans (by decide)
  have e3' : p'.system = .fin false 0 0 := hs'.trans (by decide)
  have e4' : p'.idle = .fin false 75 0 := hi'.trans (by decide)
  have hp'eq : p' = ⟨.fin false 25 0, .fin false 0 0, .fin false 0 0, .fin false 75 0⟩ := by
    cases p'
    simp only [CpuStat.mk.injEq]
    exact ⟨e1', e2', e3', e4'⟩
  obtain ⟨-, -, -, -, -, hb⟩ := htol'
    ⟨100, 0, 0, 100, by decide, by decide, by decide, by decide, rfl⟩
    ⟨150, 0, 0, 250, by decide, by decide, by decide, by decide, by decide⟩
    (by rw [eu']; decide) (by rw [en']; decide) (by rw [es']; decide) (by rw [ei']; decide)
    (by rw [esum']; decide)
  refine ⟨by decide, ⟨?_, hst.trans (by decide), by norm_num [Fl.toRat],
    by norm_num [Fl.toRat]⟩, p', hp', hp'eq, by norm_num [Fl.toRat], by norm_num [Fl.toRat], hb⟩
  rw [hp]
  cases p
  simp only [Option.some.injEq, CpuStat.mk.injEq]
  exact ⟨e1, e2, e3, e4⟩

/-- C2 as stated fails: fed the same counters `{150, 0, 0, 150}` twice in a row, `tick`
replaces the percentages `{50, 0, 0, 50}` by four NaN; fed counters whose `user` has gone
down by 50 while `idle` went up by 100, it replaces them by `{-100, 0, 0, 200}`. -/
theorem tick_unusable_delta_overwrites :
    ((NewCpusStats counters100).tick counters150) = cpuHalf ∧
      (cpuHalf.tick counters150).proc.find "cpu" = some ⟨.nan, .nan, .nan, .nan⟩ ∧
      (cpuHalf.tick countersDown).proc.find "cpu"
        = some ⟨F32.ofInt (-100), F32.ofInt 0, F32.ofInt 0, F32.ofInt 200⟩ ∧
      cpuHalf.proc.find "cpu" = some ⟨F32.ofInt 50, F32.ofInt 0, F32.ofInt 0, F32.ofInt 50⟩ := by
  decide

/-- C2, amended: `tick` is total (a `float32` division by zero yields a NaN or an
infinity, it does not trap) and skips no label: for every label of the previous-counters
map it overwrites the percentages with `procCpuStat` of the delta, whatever the delta,
and the stored counters with `ns[label]`. When the delta is zero in its four components,
as it is when the finite counters of the label are fed twice in a row, the four new
percentages are NaN. -/
theorem tick_overwrites (cs : CpusStats) (ns : GoMap CpuStat) (label : String)
    (prev : CpuStat) (h : cs.stat.find label = some prev) :
    (cs.tick ns).proc.find label
        = some (procCpuStat (subCpuStat (ns.get CpuStat.zero label) prev)) ∧
      (cs.tick ns).stat.find label = some (ns.get CpuStat.zero label) ∧
      ((subCpuStat (ns.get CpuStat.zero label) prev).user.IsZero →
        (subCpuStat (ns.get CpuStat.zero label) prev).nice.IsZero →
        (subCpuStat (ns.get CpuStat.zero label) prev).system.IsZero →
        (subCpuStat (ns.get CpuStat.zero label) prev).idle.IsZero →
        (cs.tick ns).proc.find label = some ⟨.nan, .nan, .nan, .nan⟩) ∧
      (ns.get CpuStat.zero label = prev → prev.user.isFinite = true →
        prev.nice.isFinite = true → prev.system.isFinite = true → prev.idle.isFinite = true →
        (cs.tick ns).proc.find label = some ⟨.nan, .nan, .nan, .nan⟩) := by
  obtain ⟨h1, h2⟩ := CpusStats.tick_label cs ns label prev h
  refine ⟨h1, h2, ?_, ?_⟩
  · intro hu hn hs hi
    rw [h1, procCpuStat_zero_delta _ hu hn hs hi]
  · intro e fu fn fs fi
    rw [h1, e]
    rw [procCpuStat_zero_delta _ (Fl.sub_self_isZero fu) (Fl.sub_self_isZero fn)
      (Fl.sub_self_isZero fs) (Fl.sub_self_isZero fi)]

/-- Witness of C2: the counters `{150, 0, 0, 150}` fed twice in a row. -/
theorem tick_overwrites_witness :
    (cpuHalf.tick counters150).proc.find "cpu" = some ⟨.nan, .nan, .nan, .nan⟩ ∧
      (cpuHalf.tick counters150).stat.find "cpu"
        = some ⟨F32.ofInt 150, F32.ofInt 0, F32.ofInt 0, F32.ofInt 150⟩ :=
  ⟨(tick_overwrites cpuHalf counters150 "cpu"
      ⟨F32.ofInt 150, F32.ofInt 0, F32.ofInt 0, F32.ofInt 150⟩ (by decide)).2.2.2
      (by decide) (by decide) (by decide) (by decide) (by decide),
    (tick_overwrites cpuHalf counters150 "cpu"
      ⟨F32.ofInt 150, F32.ofInt 0, F32.ofInt 0, F32.ofInt 150⟩ (by decide)).2.1.trans
      (by decide)⟩

/-! ## Decimal numerals and `strconv.ParseInt` -/

/-- The decimal digit characters. -/
theorem digitChar_spec (r : Nat) (h : r < 10) :
    ('0' ≤ Nat.digitChar r ∧ Nat.digitChar r ≤ '9') ∧
      (Nat.digitChar r).toNat - '0'.toNat = r ∧ isSpace (Nat.digitChar r) = false ∧
      Nat.digitChar r ≠ '+' ∧ Nat.digitChar r ≠ '-' ∧ Nat.digitChar r ≠ ':' := by
  interval_cases r <;> decide

theorem parseUintGo_toDigitsCore (fuel : Nat) :
    ∀ (n : Nat) (ds : List Char), n < fuel → n < 2 ^ 64 →
      parseUintGo (Nat.toDigitsCore 10 fuel n ds) 0 = parseUintGo ds n := by
  induction fuel with
  | zero => intro n ds h; omega
  | succ fuel ih =>
    intro n ds hf hn
    have hd := digitChar_spec (n % 10) (Nat.mod_lt _ (by decide))
    have step : parseUintGo (Nat.digitChar (n % 10) :: ds) (n / 10) = parseUintGo ds n := by
      rw [parseUintGo, if_pos hd.1]
      simp only [hd.2.1]
      rw [if_neg (by norm_num; omega), if_neg (by norm_num; omega)]
      congr 1
      omega
    rw [Nat.toDigitsCore]
    by_cases h0 : n / 10 = 0
    · simp only [h0, if_true]
      rw [← h0, step]
    · simp only [h0, if_false]
      rw [ih (n / 10) _ (by omega) (by omega), step]

theorem toDigitsCore_chars (fuel : Nat) :
    ∀ (n : Nat) (ds : List Char) (c : Char), c ∈ Nat.toDigitsCore 10 fuel n ds →
      c ∈ ds ∨ ∃ r, r < 10 ∧ c = Nat.digitChar r := by
  induction fuel with
  | zero => intro n ds c h; exact Or.inl h
  | succ fuel ih =>
    intro n ds c h
    rw [Nat.toDigitsCore] at h
    by_cases h0 : n / 10 = 0
    · simp only [h0, if_true] at h
      rcases List.mem_cons.1 h with e | e
      · exact Or.inr ⟨n % 10, Nat.mod_lt _ (by decide), e⟩
      · exact Or.inl e
    · simp only [h0, if_false] at h
      rcases ih _ _ _ h with e | e
      · rcases List.mem_cons.1 e with e | e
        · exact Or.inr ⟨n % 10, Nat.mod_lt _ (by decide), e⟩
        · exact Or.inl e
      · exact Or.inr e

theorem toDigitsCore_ne_nil (fuel : Nat) (n : Nat) (ds : List Char) :
    Nat.toDigitsCore 10 (fuel + 1) n ds ≠ [] := by
  induction fuel generalizing n ds with
  | zero =>
    rw [Nat.toDigitsCore]
    split_ifs <;> simp [Nat.toDigitsCore]
  | succ fuel ih =>
    rw [Nat.toDigitsCore]
    split_ifs
    · simp
    · exact ih _ _

/-- The decimal numeral of a natural number, as code points. -/
theorem toString_toList (n : Nat) : (toString n).toList = Nat.toDigits 10 n := rfl

theorem digits_chars (n : Nat) (c : Char) (h : c ∈ Nat.toDigits 10 n) :
    ∃ r, r < 10 ∧ c = Nat.digitChar r := by
  rcases toDigitsCore_chars _ _ _ _ h with e | e
  · simp at e
  · exact e

theorem digits_ne_nil (n : Nat) : Nat.toDigits 10 n ≠ [] := toDigitsCore_ne_nil _ _ _

theorem parseUintL_digits (n : Nat) (h : n < 2 ^ 64) :
    parseUintL (Nat.toDigits 10 n) = (n, none) := by
  unfold parseUintL
  rw [if_neg (digits_ne_nil n)]
  unfold Nat.toDigits
  rw [parseUintGo_toDigitsCore _ _ _ (Nat.lt_succ_self n) h]
  rfl

theorem parseIntL_digits (n : Nat) (h : n < 2 ^ 63) :
    parseIntL (Nat.toDigits 10 n) = ((n : Int), none) := by
  obtain ⟨c, cs, hc⟩ := List.exists_cons_of_ne_nil (digits_ne_nil n)
  obtain ⟨r, hr, hcr⟩ := digits_chars n c (by rw [hc]; exact List.mem_cons_self _ _)
  have hd := digitChar_spec r hr
  rw [← hcr] at hd
  have hp := parseUintL_digits n (by omega)
  rw [hc] at hp ⊢
  unfold parseIntL
  simp only [hd.2.2.2.1, hd.2.2.2.2.1, or_self, if_false, hp]
  simp
  omega

theorem parseInt_toString (n : Nat) (h : n < 2 ^ 63) :
    parseInt (toString n) = ((n : Int), none) := parseIntL_digits n h

/-! ## Fields, trimming and anchored matches -/

theorem fieldsGo_token (t rest cur : List Char) (h : ∀ c ∈ t, isSpace c = false) :
    fieldsGo (t ++ rest) cur = fieldsGo rest (cur ++ t) := by
  induction t generalizing cur with
  | nil => simp
  | cons c t ih =>
    have hc : isSpace c = false := h c (List.mem_cons_self _ _)
    rw [List.cons_append, fieldsGo]
    simp only [hc, Bool.false_eq_true, if_false]
    rw [ih _ (fun x hx => h x (List.mem_cons_of_mem _ hx))]
    simp

theorem fieldsGo_space (rest cur : List Char) (h : cur ≠ []) :
    fieldsGo (' ' :: rest) cur = cur :: fieldsGo rest [] := by
  rw [fieldsGo]
  have : isSpace ' ' = true := by decide
  simp [this, h]

theorem fieldsGo_spaces_nil (n : Nat) (rest : List Char) :
    fieldsGo (List.replicate n ' ' ++ rest) [] = fieldsGo rest [] := by
  induction n with
  | zero => simp
  | succ n ih =>
    rw [List.replicate_succ, List.cons_append, fieldsGo]
    have : isSpace ' ' = true := by decide
    simp [this, ih]

theorem fieldsGo_gap (n : Nat) (rest cur : List Char) (h : cur ≠ []) :
    fieldsGo (List.replicate (n + 1) ' ' ++ rest) cur = cur :: fieldsGo rest [] := by
  rw [List.replicate_succ, List.cons_append, fieldsGo_space _ _ h, fieldsGo_spaces_nil]

/-- The fields of a first token followed by tokens that are each preceded by a run of
spaces. -/
theorem fieldsGo_spaced (toks : List (Nat × List Char)) (cur : List Char)
    (h : ∀ t ∈ toks, IsToken t.2) (hc : cur ≠ []) :
    fieldsGo (toks.map (fun t => List.replicate (t.1 + 1) ' ' ++ t.2)).flatten cur
      = cur :: toks.map Prod.snd := by
  induction toks generalizing cur with
  | nil => simp [fieldsGo, hc]
  | cons t toks ih =>
    have ht := h t (List.mem_cons_self _ _)
    simp only [List.map_cons, List.flatten_cons, List.append_assoc]
    rw [fieldsGo_gap _ _ _ hc, fieldsGo_token _ _ _ ht.2, List.nil_append,
      ih t.2 (fun x hx => h x (List.mem_cons_of_mem _ hx)) ht.1]

theorem fieldsL_spaced (t0 : List Char) (toks : List (Nat × List Char)) (h0 : IsToken t0)
    (h : ∀ t ∈ toks, IsToken t.2) :
    fieldsL (t0 ++ (toks.map (fun t => List.replicate (t.1 + 1) ' ' ++ t.2)).flatten)
      = t0 :: toks.map Prod.snd := by
  unfold fieldsL
  rw [fieldsGo_token _ _ _ h0.2, List.nil_append, fieldsGo_spaced _ _ h h0.1]

theorem isToken_digits (n : Nat) : IsToken (Nat.toDigits 10 n) := by
  refine ⟨digits_ne_nil n, fun c hc => ?_⟩
  obtain ⟨r, hr, e⟩ := digits_chars n c hc
  rw [e]
  exact (digitChar_spec r hr).2.2.1

theorem startsWithL_append (p s : List Char) : startsWithL p (p ++ s) = true := by
  induction p with
  | nil => cases s <;> rfl
  | cons a p ih => simp [startsWithL, ih]

theorem trimSpaceL_of_ends (s : List Char) (h1 : ∀ a ∈ s.head?, isSpace a = false)
    (h2 : ∀ b ∈ s.getLast?, isSpace b = false) : trimSpaceL s = s := by
  unfold trimSpaceL
  cases s with
  | nil => rfl
  | cons a t =>
    have ha : isSpace a = false := h1 a rfl
    have hd : (a :: t).dropWhile isSpace = a :: t := by
      rw [List.dropWhile_cons]; simp [ha]
    rw [hd]
    rcases hr : (a :: t).reverse with _ | ⟨b, r⟩
    · simp at hr
    · have hb : isSpace b = false := by
        apply h2
        have : (a :: t).reverse.head? = some b := by rw [hr]; rfl
        rw [List.head?_reverse] at this
        exact this
      rw [List.dropWhile_cons]
      simp only [hb, Bool.false_eq_true, if_false]
      rw [← hr, List.reverse_reverse]

theorem dropWhile_spaces (n : Nat) (s : List Char) (h : ∀ a ∈ s.head?, isSpace a = false) :
    (List.replicate n ' ' ++ s).dropWhile isSpace = s := by
  induction n with
  | zero =>
    rw [List.replicate_zero, List.nil_append]
    cases s with
    | nil => rfl
    | cons a t =>
      rw [List.dropWhile_cons]
      simp [h a rfl]
  | succ n ih =>
    rw [List.replicate_succ, List.cons_append, List.dropWhile_cons]
    have : isSpace ' ' = true := by decide
    simp [this, ih]

/-- Trimming removes a run of leading spaces from a text that starts and ends with
characters that are not spaces. -/
theorem trimSpaceL_lead (n : Nat) (s : List Char) (h1 : ∀ a ∈ s.head?, isSpace a = false)
    (h2 : ∀ b ∈ s.getLast?, isSpace b = false) :
    trimSpaceL (List.replicate n ' ' ++ s) = s := by
  have h := trimSpaceL_of_ends s h1 h2
  unfold trimSpaceL at h ⊢
  rw [dropWhile_spaces n s h1]
  cases s with
  | nil => rfl
  | cons a t =>
    have hd : (a :: t).dropWhile isSpace = a :: t := by
      rw [List.dropWhile_cons]; simp [h1 a rfl]
    rw [hd] at h
    exact h
/-! ## The memory reducer -/

theorem gap_toList (n : Nat) : (gap n).toList = List.replicate (n + 1) ' ' := rfl

theorem memLine_toList (key : String) (g1 n g2 : Nat) :
    (memLine key g1 n g2).toList
      = key.toList ++ ([(g1, Nat.toDigits 10 n), (g2, "kB".toList)].map
          (fun t => List.replicate (t.1 + 1) ' ' ++ t.2)).flatten := by
  have hn : (toString n).data = Nat.toDigits 10 n := rfl
  have hg1 : (gap g1).data = List.replicate (g1 + 1) ' ' := rfl
  have hg2 : (gap g2).data = List.replicate (g2 + 1) ' ' := rfl
  unfold memLine
  simp only [String.toList, String.data_append, hn, hg1, hg2]
  simp

theorem fields_memLine (key : String) (g1 n g2 : Nat) (hk : IsToken key.toList) :
    fields (memLine key g1 n g2) = [key, toString n, "kB"] := by
  unfold fields
  rw [memLine_toList, fieldsL_spaced _ _ hk]
  · rfl
  · intro t ht
    simp only [List.mem_cons, List.mem_singleton, List.not_mem_nil, or_false] at ht
    rcases ht with e | e
    · rw [e]; exact isToken_digits n
    · rw [e]
      have hkB : IsToken "kB".toList := ⟨by decide, by decide⟩
      exact hkB

theorem MemStat.process_total (ms : MemStat) (g1 t g2 : Nat) (ht : t < 2 ^ 63) :
    MemStat.process ms (memLine "MemTotal:" g1 t g2) = ({ ms with total := t }, none) := by
  have h1 : matchAnchored "MemTotal:" (memLine "MemTotal:" g1 t g2) = true := by
    unfold matchAnchored
    rw [memLine_toList]
    exact startsWithL_append _ _
  have h2 : matchAnchored "MemFree:" (memLine "MemTotal:" g1 t g2) = false := by
    unfold matchAnchored
    rw [memLine_toList]
    rfl
  have hf := fields_memLine "MemTotal:" g1 t g2 ⟨by decide, by decide⟩
  unfold MemStat.process
  simp only [h1, h2, Bool.true_or, if_true, hf,
    parseInt_toString t ht, Option.map_none', Bool.false_eq_true, if_false]

theorem MemStat.process_free (ms : MemStat) (g1 f g2 : Nat) (hf : f < 2 ^ 63) :
    MemStat.process ms (memLine "MemFree:" g1 f g2) = ({ ms with free := f }, none) := by
  have h1 : matchAnchored "MemFree:" (memLine "MemFree:" g1 f g2) = true := by
    unfold matchAnchored
    rw [memLine_toList]
    exact startsWithL_append _ _
  have h2 : matchAnchored "MemTotal:" (memLine "MemFree:" g1 f g2) = false := by
    unfold matchAnchored
    rw [memLine_toList]
    rfl
  have hl := fields_memLine "MemFree:" g1 f g2 ⟨by decide, by decide⟩
  unfold MemStat.process
  simp only [h1, h2, Bool.or_true, if_true, hl,
    parseInt_toString f hf, Option.map_none', Bool.false_eq_true, if_false]

/-- C3 as stated fails: the two-field lines `MemTotal: 1000` and `MemFree: 250` are
rejected for want of a third field and leave the snapshot at zero; so does a three-field
line whose value is `2^63`. -/
theorem memStat_two_field_lines :
    MemStat.finalize
        (MemStat.process (MemStat.process { total := 0, free := 0 } "MemTotal: 1000").1
          "MemFree: 250").1 = { total := 0, free := 0 } ∧
      MemStat.process { total := 0, free := 0 } "MemTotal: 1000"
        = ({ total := 0, free := 0 }, some GoError.memFields) ∧
      MemStat.process { total := 0, free := 0 } "MemTotal: 9223372036854775808 kB"
        = ({ total := 0, free := 0 }, some (GoError.num NumError.outOfRange)) := by
  decide

/-- C3, amended: for all `t` and `f` below `2^63`, feeding a fresh memory reducer the
three-field lines `MemTotal: t kB` and `MemFree: f kB` (the fields separated by runs of
spaces of any length) and then calling `finalize` yields the snapshot
`{total: t, free: f}`, neither line being reported as an error. -/
theorem memStat_total_free (t f : Nat) (g1 g2 g3 g4 : Nat) (ht : t < 2 ^ 63)
    (hf : f < 2 ^ 63) :
    MemStat.finalize
        (MemStat.process
          (MemStat.process { total := 0, free := 0 } (memLine "MemTotal:" g1 t g2)).1
          (memLine "MemFree:" g3 f g4)).1 = { total := t, free := f } ∧
      (MemStat.process { total := 0, free := 0 } (memLine "MemTotal:" g1 t g2)).2 = none ∧
      (MemStat.process
          (MemStat.process { total := 0, free := 0 } (memLine "MemTotal:" g1 t g2)).1
          (memLine "MemFree:" g3 f g4)).2 = none := by
  rw [MemStat.process_total _ g1 t g2 ht, MemStat.process_free _ g3 f g4 hf]
  exact ⟨rfl, rfl, rfl⟩

/-- Witness of C3: the lines `MemTotal: 1000 kB` and `MemFree:   250 kB`. -/
theorem memStat_total_free_witness :
    memLine "MemTotal:" 0 1000 0 = "MemTotal: 1000 kB" ∧
      memLine "MemFree:" 2 250 0 = "MemFree:   250 kB" ∧
      MemStat.finalize
        (MemStat.process (MemStat.process { total := 0, free := 0 } "MemTotal: 1000 kB").1
          "MemFree:   250 kB").1 = { total := 1000, free := 250 } :=
  ⟨by decide, by decide, (memStat_total_free 1000 250 0 0 2 0 (by decide) (by decide)).1⟩

/-- The memory source read through `getMemStats`: the two lines among others. -/
theorem getMemStats_example :
    getMemStats (some "MemTotal:       16315288 kB\nMemFree:         9486932 kB\nBuffers: 1 kB\n")
      = some ({ total := 16315288, free := 9486932 }, none) := by
  decide

/-! ## The network reducer -/

theorem containsL_append (p sub s : List Char) : containsL (p ++ (sub ++ s)) sub = true := by
  induction p with
  | nil =>
    rw [List.nil_append]
    cases h : sub ++ s with
    | nil =>
      have : sub = [] := (List.append_eq_nil.1 h).1
      subst this; rfl
    | cons c cs =>
      unfold containsL
      rw [← h, startsWithL_append]; rfl
  | cons a p ih =>
    rw [List.cons_append]
    unfold containsL
    rw [ih]; simp

theorem containsL_lo_of_no_colon (s : List Char) (h : ':' ∉ s) :
    containsL s ['l', 'o', ':'] = false := by
  induction s with
  | nil => rfl
  | cons c cs ih =>
    simp only [List.mem_cons, not_or] at h
    unfold containsL
    rw [ih h.2, Bool.or_false]
    rcases cs with _ | ⟨c1, _ | ⟨c2, cs⟩⟩
    · simp [startsWithL]
    · simp [startsWithL]
    · simp only [List.mem_cons, not_or] at h
      have : (':' == c2) = false := by simpa using h.2.2.1
      simp [startsWithL, this]

theorem endsInLoL_iff (s : List Char) : endsInLoL s = true ↔ ['l', 'o'] <:+ s := by
  induction s with
  | nil => simp [endsInLoL]
  | cons c cs ih =>
    rw [endsInLoL, Bool.or_eq_true, ih, List.suffix_cons_iff, decide_eq_true_eq]
    constructor
    · rintro (h | h)
      · exact Or.inl h.symm
      · exact Or.inr h
    · rintro (h | h)
      · exact Or.inl h.symm
      · exact Or.inr h

theorem endsInLoL_eq (s : List Char) : endsInLoL s = ['l', 'o'].isSuffixOf s := by
  rw [Bool.eq_iff_iff, endsInLoL_iff, List.isSuffixOf_iff_suffix]

theorem startsWithL_lo_colon (c : Char) (cs rest : List Char) (h1 : ':' ∉ c :: cs) :
    startsWithL ['l', 'o', ':'] (c :: cs ++ ':' :: rest) = decide (c :: cs = ['l', 'o']) := by
  simp only [List.mem_cons, not_or] at h1
  rcases cs with _ | ⟨c1, _ | ⟨c2, cs⟩⟩
  · have hc : ('o' == ':') = false := by decide
    simp [startsWithL, hc]
  · by_cases e1 : c = 'l'
    · by_cases e2 : c1 = 'o'
      · simp [startsWithL, e1, e2]
      · have : ('o' == c1) = false := by simpa using fun h => e2 h.symm
        simp [startsWithL, e1, e2, this]
    · have : ('l' == c) = false := by simpa using fun h => e1 h.symm
      simp [startsWithL, e1, this]
  · simp only [List.mem_cons, not_or] at h1
    have : (':' == c2) = false := by simpa using h1.2.2.1
    simp [startsWithL, this]

theorem containsL_lo_colon (name rest : List Char) (h1 : ':' ∉ name) (h2 : ':' ∉ rest) :
    containsL (name ++ ':' :: rest) ['l', 'o', ':'] = endsInLoL name := by
  induction name with
  | nil =>
    rw [List.nil_append]
    unfold containsL
    rw [containsL_lo_of_no_colon _ h2]
    rfl
  | cons c cs ih =>
    have h1' : ':' ∉ cs := fun h => h1 (List.mem_cons_of_mem _ h)
    rw [endsInLoL, ← ih h1', ← startsWithL_lo_colon c cs rest h1]
    rw [List.cons_append]
    conv_lhs => unfold containsL

theorem countersText_toList (cs : List (Nat × Nat)) :
    (countersText cs).toList
      = (cs.map fun c => List.replicate (c.1 + 1) ' ' ++ Nat.toDigits 10 c.2).flatten := by
  induction cs with
  | nil => rfl
  | cons c cs ih =>
    have hn : (toString c.2).data = Nat.toDigits 10 c.2 := rfl
    have hg : (gap c.1).data = List.replicate (c.1 + 1) ' ' := rfl
    have ih' : (countersText cs).data = _ := ih
    rw [countersText]
    simp only [String.toList, String.data_append, hn, hg, ih']
    simp

theorem IfaceLine.body_toList (l : IfaceLine) :
    l.body.toList = l.name.toList ++ ':' ::
      (l.cells.map fun c => List.replicate (c.1 + 1) ' ' ++ Nat.toDigits 10 c.2).flatten := by
  have h := countersText_toList l.cells
  unfold IfaceLine.body
  simp only [String.toList, String.data_append] at h ⊢
  rw [h]
  simp

theorem IfaceLine.text_toList (l : IfaceLine) :
    l.text.toList = List.replicate l.lead ' ' ++ l.body.toList := by
  unfold IfaceLine.text
  simp only [String.toList, String.data_append]

theorem counters_no_colon (cs : List (Nat × Nat)) :
    ':' ∉ (cs.map fun c => List.replicate (c.1 + 1) ' ' ++ Nat.toDigits 10 c.2).flatten := by
  intro h
  rw [List.mem_flatten] at h
  obtain ⟨t, ht, hc⟩ := h
  rw [List.mem_map] at ht
  obtain ⟨n, -, rfl⟩ := ht
  rcases List.mem_append.1 hc with e | e
  · exact absurd (List.eq_of_mem_replicate e) (by decide)
  · obtain ⟨r, hr, e'⟩ := digits_chars n.2 _ e
    exact (digitChar_spec r hr).2.2.2.2.2 e'.symm

theorem IfaceLine.contains_colon (l : IfaceLine) : contains l.body ":" = true := by
  unfold contains
  rw [IfaceLine.body_toList]
  exact containsL_append l.name.toList [':'] _

theorem IfaceLine.contains_lo (l : IfaceLine) (h : l.WF) :
    contains l.body "lo:" = l.endsInLo := by
  unfold contains IfaceLine.endsInLo
  rw [IfaceLine.body_toList]
  show containsL _ ['l', 'o', ':'] = ['l', 'o'].isSuffixOf _
  rw [← endsInLoL_eq]
  exact containsL_lo_colon _ _ (fun hc => (h.2.1 _ hc).2 rfl) (counters_no_colon _)

theorem IfaceLine.fields_body (l : IfaceLine) (h : l.WF) :
    fields l.body = (l.name ++ ":") :: l.counters.map fun c => toString c := by
  unfold fields
  rw [IfaceLine.body_toList]
  have e : l.name.toList ++ ':' ::
      (l.cells.map fun c => List.replicate (c.1 + 1) ' ' ++ Nat.toDigits 10 c.2).flatten
      = (l.name.toList ++ [':'])
        ++ ((l.cells.map fun c => (c.1, Nat.toDigits 10 c.2)).map
          fun t => List.replicate (t.1 + 1) ' ' ++ t.2).flatten := by
    simp [List.map_map, Function.comp_def]
  rw [e, fieldsL_spaced]
  · simp only [List.map_cons, List.map_map, IfaceLine.counters]
    congr 1
  · refine ⟨by simp, fun c hc => ?_⟩
    rcases List.mem_append.1 hc with hc | hc
    · exact (h.2.1 c hc).1
    · rw [List.mem_singleton.1 hc]; decide
  · intro t ht
    obtain ⟨n, -, rfl⟩ := List.mem_map.1 ht
    exact isToken_digits n.2

theorem counters_getLast (cs : List (Nat × Nat)) (b : Char)
    (hb : b ∈ ((cs.map fun c =>
      List.replicate (c.1 + 1) ' ' ++ Nat.toDigits 10 c.2).flatten).getLast?)
    (hne : cs ≠ []) : isSpace b = false := by
  induction cs with
  | nil => exact absurd rfl hne
  | cons c cs ih =>
    simp only [List.map_cons, List.flatten_cons] at hb
    rcases cs with _ | ⟨c', cs⟩
    · simp only [List.map_nil, List.flatten_nil, List.append_nil] at hb
      rw [List.getLast?_append_of_ne_nil _ (digits_ne_nil c.2)] at hb
      obtain ⟨r, hr, e⟩ := digits_chars c.2 b (List.mem_of_mem_getLast? hb)
      rw [e]
      exact (digitChar_spec r hr).2.2.1
    · rw [List.getLast?_append_of_ne_nil _ (by simp [List.replicate_succ])] at hb
      exact ih hb (by simp)

/-- Trimming an interface line removes its leading spaces. -/
theorem IfaceLine.trimSpace_text (l : IfaceLine) (h : l.WF) : trimSpace l.text = l.body := by
  have ht : trimSpaceL l.text.toList = l.body.toList := by
    rw [IfaceLine.text_toList]
    apply trimSpaceL_lead
    · intro a ha
      rw [IfaceLine.body_toList] at ha
      rcases hn : l.name.toList with _ | ⟨c, cs⟩
      · exact absurd hn h.1
      · rw [hn] at ha
        simp only [List.cons_append, List.head?_cons, Option.mem_def, Option.some.injEq] at ha
        rw [← ha]
        exact (h.2.1 c (by rw [hn]; exact List.mem_cons_self _ _)).1
    · intro b hb
      have hne : l.cells ≠ [] := by
        intro e
        have := h.2.2.1
        rw [IfaceLine.counters, e] at this
        simp at this
      rw [IfaceLine.body_toList, List.append_cons,
        List.getLast?_append_of_ne_nil] at hb
      · exact counters_getLast _ b hb hne
      · obtain ⟨c, cs, hc⟩ := List.exists_cons_of_ne_nil hne
        rw [hc]
        simp [List.replicate_succ]
  unfold trimSpace
  rw [ht]
  rfl

theorem exists_nine (cs : List Nat) (h : 9 ≤ cs.length) :
    ∃ c0 c1 c2 c3 c4 c5 c6 c7 c8 rest,
      cs = c0 :: c1 :: c2 :: c3 :: c4 :: c5 :: c6 :: c7 :: c8 :: rest := by
  rcases cs with _ | ⟨c0, _ | ⟨c1, _ | ⟨c2, _ | ⟨c3, _ | ⟨c4, _ | ⟨c5, _ | ⟨c6, _ | ⟨c7,
    _ | ⟨c8, rest⟩⟩⟩⟩⟩⟩⟩⟩⟩
  all_goals first
    | exact ⟨_, _, _, _, _, _, _, _, _, _, rfl⟩
    | (simp only [List.length] at h; omega)

/-- One trimmed interface line through the network reducer. -/
theorem NetStat.process_ifaceLine (ns : NetStat) (l : IfaceLine) (h : l.WF) :
    NetStat.process ns l.body
      = some (if l.endsInLo then ns else
          { rxTotal := wrap64 (ns.rxTotal + l.rx), txTotal := wrap64 (ns.txTotal + l.tx) },
        none) := by
  unfold NetStat.process
  rw [IfaceLine.contains_colon, IfaceLine.contains_lo l h]
  by_cases hl : l.endsInLo = true
  · simp [hl]
  · have hl' : l.endsInLo = false := by simpa using hl
    obtain ⟨c0, c1, c2, c3, c4, c5, c6, c7, c8, rest, hc⟩ := exists_nine _ h.2.2.1
    have h0 : c0 < 2 ^ 63 := h.2.2.2 c0 (by rw [hc]; simp)
    have h8 : c8 < 2 ^ 63 := h.2.2.2 c8 (by rw [hc]; simp)
    have hrx : l.rx = (c0 : Int) := by unfold IfaceLine.rx; rw [hc]; rfl
    have htx : l.tx = (c8 : Int) := by unfold IfaceLine.tx; rw [hc]; rfl
    simp only [hl', Bool.not_false, Bool.and_self, if_true, IfaceLine.fields_body l h, hc,
      List.map_cons, List.get?_cons_succ, List.get?_cons_zero, parseInt_toString c0 h0,
      parseInt_toString c8 h8, Option.map_none', hrx, htx]
    simp

theorem feedLines_ifaceLines (ls : List IfaceLine) (h : ∀ l ∈ ls, l.WF) (a b : Int) :
    feedLines netLP (ls.map IfaceLine.text) { txTotal := wrap64 a, rxTotal := wrap64 b }
      = some { txTotal := wrap64 (a + ((countedLines ls).map IfaceLine.tx).sum),
               rxTotal := wrap64 (b + ((countedLines ls).map IfaceLine.rx).sum) } := by
  induction ls generalizing a b with
  | nil => simp [feedLines, countedLines]
  | cons l ls ih =>
    have hl := h l (List.mem_cons_self _ _)
    have hs : netLP.process { txTotal := wrap64 a, rxTotal := wrap64 b } (trimSpace l.text)
        = some (if l.endsInLo then { txTotal := wrap64 a, rxTotal := wrap64 b } else
            { rxTotal := wrap64 (wrap64 b + l.rx), txTotal := wrap64 (wrap64 a + l.tx) },
          none) := by
      rw [IfaceLine.trimSpace_text l hl]
      exact NetStat.process_ifaceLine _ l hl
    rw [List.map_cons, feedLines, hs]
    by_cases e : l.endsInLo = true
    · simp only [e, if_true]
      rw [ih (fun x hx => h x (List.mem_cons_of_mem _ hx))]
      simp [countedLines, List.filter_cons, e]
    · have e' : l.endsInLo = false := by simpa using e
      simp only [e', Bool.false_eq_true, if_false, wrap64_add_wrap64]
      rw [ih (fun x hx => h x (List.mem_cons_of_mem _ hx))]
      simp [countedLines, List.filter_cons, e', add_assoc]

set_option maxRecDepth 20000 in
/-- C7 as stated fails: the line of an interface named `foolo`, which is not the loopback
interface, is skipped, so the totals are those of `eth0` alone (100 received, 200 sent)
and not the sums 107 and 209 over the lines whose interface is not `lo`. -/
theorem netStat_skips_foolo :
    eth0Line.text = "  eth0: 100    1 0 0 0 0 0 0  200 1 0 0 0 0 0 0" ∧
      fooloLine.text = " foolo: 7 1 0 0 0 0 0 0 9 1 0 0 0 0 0 0" ∧
      (feedLines netLP [eth0Line.text, fooloLine.text] { txTotal := 0, rxTotal := 0 }).map
          NetStat.finalize = some { txTotal := 200, rxTotal := 100 } ∧
      ((([eth0Line, fooloLine].filter fun l => l.name ≠ "lo").map IfaceLine.rx).sum = 107 ∧
        (([eth0Line, fooloLine].filter fun l => l.name ≠ "lo").map IfaceLine.tx).sum = 209) := by
  decide

/-- C7, amended: for every sequence of well-formed interface lines (leading spaces, a
non-empty name without white space or colon, a colon, at least nine counters below `2^63`,
each preceded by one or more spaces) the totals of a fresh network reducer after all the lines are the sums,
reduced to `int64`, of the receive bytes (field 2) and of the transmit bytes (field 10)
over exactly the lines whose interface name does not end in `lo`; no such sum being
reduced when it is below `2^63`. The loopback interface `lo` is among the lines left out. -/
theorem netStat_totals (ls : List IfaceLine) (h : ∀ l ∈ ls, l.WF) :
    (feedLines netLP (ls.map IfaceLine.text) { txTotal := 0, rxTotal := 0 }).map NetStat.finalize
        = some { txTotal := wrap64 ((countedLines ls).map IfaceLine.tx).sum,
                 rxTotal := wrap64 ((countedLines ls).map IfaceLine.rx).sum } ∧
      (((countedLines ls).map IfaceLine.tx).sum < 2 ^ 63 →
        wrap64 ((countedLines ls).map IfaceLine.tx).sum = ((countedLines ls).map IfaceLine.tx).sum) ∧
      (((countedLines ls).map IfaceLine.rx).sum < 2 ^ 63 →
        wrap64 ((countedLines ls).map IfaceLine.rx).sum = ((countedLines ls).map IfaceLine.rx).sum) ∧
      (∀ l ∈ ls, l ∈ countedLines ls ↔ ¬ "lo".toList <:+ l.name.toList) ∧
      (∀ l ∈ countedLines ls, l.name ≠ "lo") := by
  have hnn : ∀ (xs : List IfaceLine) (f : IfaceLine → Int), (∀ l, 0 ≤ f l) → 0 ≤ (xs.map f).sum := by
    intro xs f hf
    induction xs with
    | nil => simp
    | cons x xs ih => simp only [List.map_cons, List.sum_cons]; have := hf x; omega
  have h0 : wrap64 0 = 0 := by decide
  have hf := feedLines_ifaceLines ls h 0 0
  rw [h0] at hf
  refine ⟨?_, ?_, ?_, ?_, ?_⟩
  · rw [hf]
    simp [NetStat.finalize]
  · intro hlt
    have hge := hnn (countedLines ls) IfaceLine.tx (fun l => by unfold IfaceLine.tx; omega)
    exact wrap64_of_inInt64 ⟨by omega, hlt⟩
  · intro hlt
    have hge := hnn (countedLines ls) IfaceLine.rx (fun l => by unfold IfaceLine.rx; omega)
    exact wrap64_of_inInt64 ⟨by omega, hlt⟩
  · intro l hl
    unfold countedLines IfaceLine.endsInLo
    rw [List.mem_filter, ← List.isSuffixOf_iff_suffix]
    simp only [hl, true_and, Bool.not_eq_true', Bool.not_eq_true]
  · intro l hl e
    unfold countedLines IfaceLine.endsInLo at hl
    rw [List.mem_filter, e] at hl
    exact absurd hl.2 (by decide)

set_option maxRecDepth 20000 in
/-- Witness of C7: the lines of `lo`, `eth0` and `foolo` give the totals of `eth0`. -/
theorem netStat_totals_witness :
    (feedLines netLP ([loLine, eth0Line, fooloLine].map IfaceLine.text)
        { txTotal := 0, rxTotal := 0 }).map NetStat.finalize
      = some { txTotal := 200, rxTotal := 100 } :=
  (netStat_totals [loLine, eth0Line, fooloLine] (by
    intro l hl
    simp only [List.mem_cons, List.mem_singleton, List.not_mem_nil, or_false] at hl
    rcases hl with e | e | e <;> subst e <;> exact ⟨by decide, by decide, by decide, by decide⟩)).1.trans
    (by decide)

set_option maxRecDepth 100000 in
/-- The network source read through `getNetStats`: the two header lines hold no colon and
are skipped, the loopback line is skipped, the line of `eth0` is counted. -/
theorem getNetStats_example :
    getNetStats (some ("Inter-|   Receive                |  Transmit\n" ++
        " face |bytes    packets errs drop|bytes    packets errs drop\n" ++
        "    lo: 5 1 0 0 0 0 0 0 5 1 0 0 0 0 0 0\n" ++
        "  eth0: 100    1 0 0 0 0 0 0  200 1 0 0 0 0 0 0\n"))
      = some ({ txTotal := 200, rxTotal := 100 }, none) := by
  decide

/-! ## Malformed lines -/

/-- A line the memory reducer reports as an error leaves its state unchanged. -/
theorem MemStat.process_error_keeps (ms : MemStat) (line : String)
    (h : (MemStat.process ms line).2 ≠ none) : (MemStat.process ms line).1 = ms := by
  unfold MemStat.process at h ⊢
  simp only at h ⊢
  split <;> simp_all

/-- Whether the memory reducer reports a line does not depend on its state. -/
theorem MemStat.process_error_state (ms ms' : MemStat) (line : String) :
    (MemStat.process ms line).2 = (MemStat.process ms' line).2 := by
  unfold MemStat.process
  simp only
  split <;> simp_all

/-- The memory reducer meets the requirement on malformed lines: the read never aborts and
the snapshot is the one of the source without the lines reported as errors. -/
theorem feedLines_memLP_skips (ls : List String) (ms : MemStat) :
    feedLines memLP ls ms
      = feedLines memLP
          (ls.filter fun l => (MemStat.process { total := 0, free := 0 } (trimSpace l)).2.isNone) ms ∧
      (feedLines memLP ls ms).isSome = true := by
  induction ls generalizing ms with
  | nil => exact ⟨rfl, rfl⟩
  | cons l ls ih =>
    by_cases he : (MemStat.process { total := 0, free := 0 } (trimSpace l)).2 = none
    · have hf : (MemStat.process { total := 0, free := 0 } (trimSpace l)).2.isNone = true := by
        rw [he]; rfl
      rw [List.filter_cons, if_pos hf]
      simp only [feedLines, memLP]
      exact ih _
    · have hf : ¬ (MemStat.process { total := 0, free := 0 } (trimSpace l)).2.isNone = true := by
        intro h
        exact he (Option.isNone_iff_eq_none.1 h)
      rw [List.filter_cons, if_neg hf]
      have hk : (MemStat.process ms (trimSpace l)).1 = ms :=
        MemStat.process_error_keeps ms _ (by rw [MemStat.process_error_state ms ⟨0, 0⟩]; exact he)
      simp only [feedLines, memLP, hk]
      exact ih ms

/-- The CPU reducer never aborts the read. -/
theorem feedLines_cpuLP_isSome (ls : List String) (m : GoMap CpuStat) :
    (feedLines cpuLP ls m).isSome = true := by
  induction ls generalizing m with
  | nil => rfl
  | cons l ls ih =>
    simp only [feedLines, cpuLP]
    exact ih _

set_option maxRecDepth 100000 in
/-- C8 fails on the code for the network and the CPU reducers. A network line of fewer
than ten fields makes `NetStat.process` panic on `tab[9]`, so the well-formed line after
it is never read; a network line with an unreadable receive counter still adds its
transmit counter and reports no error; a CPU line with an unreadable counter is reported
as an error and yet stores an entry made of the counters read before it. -/
theorem malformed_line_effects :
    getNetStats (some "eth0: 1 2\neth1: 100 1 0 0 0 0 0 0 200 1 0 0 0 0 0 0\n") = none ∧
      getNetStats (some "eth1: 100 1 0 0 0 0 0 0 200 1 0 0 0 0 0 0\n")
        = some ({ txTotal := 200, rxTotal := 100 }, none) ∧
      NetStat.process { txTotal := 0, rxTotal := 0 } "eth0: x 1 0 0 0 0 0 0 7 1 0 0 0 0 0 0"
        = some ({ txTotal := 7, rxTotal := 0 }, none) ∧
      CpuLineProcessor.process [] "cpu0 1 x 3 4"
        = ([("cpu0", ⟨F32.ofInt 1, F32.ofInt 0, F32.ofInt 0, F32.ofInt 0⟩)],
            some (GoError.num NumError.badSyntax)) ∧
      getCpusStatsMap (some "cpu0 1 x 3 4\ncpu1 5 6 7 8\n")
        = some ([("cpu0", ⟨F32.ofInt 1, F32.ofInt 0, F32.ofInt 0, F32.ofInt 0⟩),
            ("cpu1", ⟨F32.ofInt 5, F32.ofInt 6, F32.ofInt 7, F32.ofInt 8⟩)], none) ∧
      getCpusStatsMap (some "cpu1 5 6 7 8\n")
        = some ([("cpu1", ⟨F32.ofInt 5, F32.ofInt 6, F32.ofInt 7, F32.ofInt 8⟩)], none) := by
  decide


end Gotop
